import Mathlib

/-!
Verification of the Kestrel compiler / query-planning core.

This file shallowly embeds the parts of the kestrel-lang repository that the
checked claims are about:

* the schema-mapping engine
  (`packages/kestrel_core/src/kestrel/mapping/data_model.py`),
* the SQL translator
  (`packages/kestrel_core/src/kestrel/interface/codegen/sql.py`),
* the frame-native evaluator
  (`packages/kestrel_core/src/kestrel/interface/codegen/dataframe.py`),
* the frontend comparison builder
  (`packages/kestrel_core/src/kestrel/frontend/compile.py`),
* the SQL-cache graph evaluator
  (`packages/kestrel_core/src/kestrel/cache/sql.py`).

The IR data model (`kestrel/ir/filter.py`, `kestrel/ir/instructions.py`,
`kestrel/ir/graph.py`) and the value-transformer registry
(`kestrel/mapping/transformers.py`) are not part of the provided sources;
definitions derived from them are modelled from the specification and are
marked as such in their doc comments.

Python dictionaries are embedded as association lists on `String` keys with
first-occurrence lookup and in-place update (which matches insertion-ordered
Python dicts).  Python exceptions are embedded with `Except Err`.
-/

set_option maxRecDepth 8192

/-- Python exception kinds raised by the embedded code. -/
inductive Err where
  | keyError
  | typeError
  | indexError
  | valueError
  | attributeError
  | notImplementedError
  | mismatchedFieldValue
  | invalidOperator
  | sourceSchemaNotFound
  | invalidGraph
  | fuelOut
  deriving DecidableEq, Repr

/-- Values of a data-model mapping file (nested YAML): a leaf string, a list
of alternatives, or a nested dictionary (possibly a record carrying
`native_field`). -/
inductive MapVal where
  | mstr (s : String)
  | mlist (xs : List MapVal)
  | mdict (d : List (String × MapVal))
  deriving Repr

/-- A Python dictionary with string keys, as an insertion-ordered association
list. -/
abbrev Entries := List (String × MapVal)

/-- First-occurrence association-list lookup (Python `dict.get` / `in`). -/
def alistGet {α : Type} : List (String × α) → String → Option α
  | [], _ => none
  | (k, v) :: rest, key => if k == key then some v else alistGet rest key

/-- Association-list update: replace the value at the first occurrence of the
key, or append a new binding (Python `d[k] = v` on an ordered dict). -/
def alistSet {α : Type} : List (String × α) → String → α → List (String × α)
  | [], key, v => [(key, v)]
  | (k, w) :: rest, key, v =>
      if k == key then (k, v) :: rest else (k, w) :: alistSet rest key v

/-- Python truthiness of a mapping value (`""`, `[]` and `{}` are falsy). -/
def pyTruthy : MapVal → Bool
  | .mstr s => !(s == "")
  | .mlist xs => !xs.isEmpty
  | .mdict d => !d.isEmpty

theorem alistGet_set_self {α : Type} (l : List (String × α)) (k : String) (v : α) :
    alistGet (alistSet l k v) k = some v := by
  induction l with
  | nil => simp [alistSet, alistGet]
  | cons p rest ih =>
    obtain ⟨k0, v0⟩ := p
    by_cases h : k0 == k
    · simp [alistSet, alistGet, h]
    · simp [alistSet, alistGet, h, ih]

theorem alistGet_set_ne {α : Type} (l : List (String × α)) (k k1 : String) (v : α)
    (h : k1 ≠ k) : alistGet (alistSet l k v) k1 = alistGet l k1 := by
  induction l with
  | nil => simp [alistSet, alistGet, Ne.symm h]
  | cons p rest ih =>
    obtain ⟨k0, v0⟩ := p
    by_cases h0 : k0 = k
    · subst h0
      simp [alistSet, alistGet, Ne.symm h]
    · simp only [alistSet, beq_iff_eq, h0, if_false]
      simp only [alistGet, ih]

/-- Column reference rendered by the SQL translator: a single `column(f)` or a
`tuple_(column(f1), ..., column(fn))`. -/
inductive ColRef where
  | one (c : String)
  | tup (cs : List String)
  deriving DecidableEq, Repr

/-- SQLAlchemy comparison operator functions, the codomain of `comp2func` in
`interface/codegen/sql.py` (`NMATCHES` maps to `regexp_match`; the caller must
negate). -/
inductive CompFn where
  | feq | fne | flt | fle | fgt | fge
  | flike | fnotlike | fregexp | fin | fnotin
  deriving DecidableEq, Repr

mutual

/-- Python values flowing through comparisons: strings, ints, floats, lists,
tuples, `ReferenceValue`s (modelled from the spec: a variable name plus an
attribute tuple, `kestrel/ir/filter.py` is not under the provided sources) and
resolved subqueries (SQLAlchemy `Select` objects substituted by
`resolve_references`). -/
inductive PVal where
  | vstr (s : String)
  | vint (n : Int)
  | vfloat (q : Rat)
  | vlist (xs : List PVal)
  | vtuple (xs : List PVal)
  | vref (name : String) (attrs : List String)
  | vquery (q : SQuery)

/-- Symbolic SQLAlchemy boolean expression built by the translator. -/
inductive SExpr where
  | strue
  | scomp (fn : CompFn) (col : ColRef) (value : PVal)
  | snot (e : SExpr)
  | sand (l r : SExpr)
  | sor (l r : SExpr)

/-- Symbolic FROM object: a named table or a named CTE with its body. -/
inductive SFrom where
  | stable (name : String)
  | scte (name : String) (body : SQuery)

/-- Symbolic SQLAlchemy `Select`: source, an optional projected column list
(with optional labels), WHERE conjuncts, DISTINCT flag, LIMIT, OFFSET and
ORDER BY items. -/
inductive SQuery where
  | mk (src : SFrom) (cols : Option (List (String × Option String)))
      (wheres : List SExpr) (dtc : Bool) (lim : Option Nat) (off : Option Nat)
      (ord : List (String × Bool))

end

/-- The translated-comparison triple `(field, op, value)`; field and operator
keep whatever Python object the code put there. -/
abbrev Triple := MapVal × MapVal × PVal

/-- Modelled from the spec: the value-transformer registry of
`kestrel/mapping/transformers.py` (not under the provided sources): a named
registry of pure functions on scalars; an unknown name is a registry lookup
failure. -/
def applyTransformer (name : String) (v : PVal) : Except Err PVal :=
  if name == "lowercase" then
    match v with
    | .vstr s => .ok (.vstr s.toLower)
    | _ => .error .typeError
  else if name == "uppercase" then
    match v with
    | .vstr s => .ok (.vstr s.toUpper)
    | _ => .error .typeError
  else if name == "to_int" then
    match v with
    | .vint n => .ok (.vint n)
    | .vfloat q => .ok (.vint q.floor)
    | .vstr s =>
      match s.toInt? with
      | some n => .ok (.vint n)
      | none => .error .valueError
    | _ => .error .typeError
  else if name == "to_str" then
    match v with
    | .vint n => .ok (.vstr (toString n))
    | .vstr s => .ok (.vstr s)
    | _ => .error .typeError
  else if name == "basename" then
    match v with
    | .vstr s => .ok (.vstr (((s.splitOn "/").getLast? ).getD s))
    | _ => .error .typeError
  else if name == "dirname" then
    match v with
    | .vstr s => .ok (.vstr (String.intercalate "/" ((s.splitOn "/").dropLast)))
    | _ => .error .typeError
  else if name == "startswith" then
    match v with
    | .vstr s => .ok (.vstr (s ++ "%"))
    | _ => .error .typeError
  else if name == "endswith" then
    match v with
    | .vstr s => .ok (.vstr ("%" ++ s))
    | _ => .error .typeError
  else .error .keyError

/-- Modelled from the spec: `run_transformer`; a missing or falsy transformer
name means pass-through. -/
def runTransformer (transform : Option MapVal) (v : PVal) : Except Err PVal :=
  match transform with
  | none => .ok v
  | some t =>
      if pyTruthy t then
        match t with
        | .mstr name => applyTransformer name v
        | _ => .error .typeError
      else .ok v

/-- Embedding of `_get_map_triple` (`mapping/data_model.py` lines 97-102). -/
def getMapTriple (d : Entries) (pfx : String) (op : MapVal) (value : PVal) :
    Except Err Triple := do
  let mappedOp := alistGet d (pfx ++ "_op")
  let transform := alistGet d (pfx ++ "_value")
  let newValue ← runTransformer transform value
  let newOp := match mappedOp with
    | some o => if pyTruthy o then o else op
    | none => op
  match alistGet d (pfx ++ "_field") with
  | some f => .ok (f, newOp, newValue)
  | none => .error .keyError

/-- Splitting a character list on a separator character, with the current
segment accumulated in reverse. -/
def splitCharAux (sep : Char) : List Char → List Char → List String
  | [], acc => [String.mk acc.reverse]
  | c :: rest, acc =>
      if c == sep then String.mk acc.reverse :: splitCharAux sep rest []
      else splitCharAux sep rest (c :: acc)

/-- Embedding of Python `s.split(".")` (single-character separator): splits at
every occurrence, keeping empty segments; `"".split(".") = [""]`. -/
def pySplitDot (s : String) : List String :=
  splitCharAux '.' s.data []

/-- Joining with dots: Python `".".join(items)`. -/
def dotJoin : List String → String
  | [] => ""
  | [x] => x
  | x :: rest => x ++ "." ++ dotJoin rest

/-- Embedding of Python `s.endswith(p)`. -/
def pyEndsWith (s p : String) : Bool :=
  p.data.length ≤ s.data.length && s.data.drop (s.data.length - p.data.length) == p.data

/-- Embedding of Python `s.startswith(p)`. -/
def pyStartsWith (s p : String) : Bool :=
  s.data.take p.data.length == p.data

/-- Embedding of Python `s[n:]`. -/
def pyDrop (s : String) (n : Nat) : String :=
  String.mk (s.data.drop n)

/-- Embedding of `reduce(dict.__getitem__, field.split("."), dmm)`: a missing
key raises `KeyError`; applying `dict.__getitem__` to a non-dict raises
`TypeError`. -/
def reduceGetItem : MapVal → List String → Except Err MapVal
  | cur, [] => .ok cur
  | cur, seg :: rest =>
      match cur with
      | .mdict d =>
          match alistGet d seg with
          | some v => reduceGetItem v rest
          | none => .error .keyError
      | _ => .error .typeError

/-- One iteration of the list loop in `translate_comparison_to_native`
(lines 146-150): a dict item goes through `_get_map_triple`, any other item is
appended as `(i, op, value)`. -/
def nativeItemTriple (i : MapVal) (op : MapVal) (value : PVal) : Except Err Triple :=
  match i with
  | .mdict d => getMapTriple d "native" op value
  | _ => .ok (i, op, value)

/-- The list loop of `translate_comparison_to_native`, keeping the partial
result list built before an exception (the `try` block appends as it goes). -/
def nativeLoop : List MapVal → MapVal → PVal → List Triple × Option Err
  | [], _, _ => ([], none)
  | i :: rest, op, value =>
      match nativeItemTriple i op value with
      | .ok t =>
          let (ts, e) := nativeLoop rest op value
          (t :: ts, e)
      | .error e => ([], some e)

/-- The body of the `try` block in `translate_comparison_to_native`
(lines 143-154), returning the partial result together with the exception that
escaped it, if any. -/
def nativeTryBody (dmm : Entries) (field : String) (op : MapVal) (value : PVal) :
    List Triple × Option Err :=
  match reduceGetItem (.mdict dmm) (pySplitDot field) with
  | .error e => ([], some e)
  | .ok node =>
      match node with
      | .mlist xs => nativeLoop xs op value
      | .mdict d =>
          match getMapTriple d "native" op value with
          | .ok t => ([t], none)
          | .error e => ([], some e)
      | .mstr s => ([(.mstr s, op, value)], none)

/-- The fallback path of `translate_comparison_to_native`: run the `try` body;
`KeyError` is caught and appends the pass-through triple, other exceptions
propagate. -/
def nativeFallback (dmm : Entries) (field : String) (op : MapVal) (value : PVal) :
    Except Err (List Triple) :=
  match nativeTryBody dmm field op value with
  | (res, none) => .ok res
  | (res, some .keyError) => .ok (res ++ [(.mstr field, op, value)])
  | (_, some e) => .error e

/-- Embedding of `translate_comparison_to_native`
(`mapping/data_model.py` lines 105-159). -/
def translateCompToNative (dmm : Entries) (field : String) (op : MapVal)
    (value : PVal) : Except Err (List Triple) :=
  match alistGet dmm field with
  | some mv =>
      if pyTruthy mv then
        match mv with
        | .mstr s => .ok [(.mstr s, op, value)]
        | _ => .error .notImplementedError
      else nativeFallback dmm field op value
  | none => nativeFallback dmm field op value

/-- One iteration of the list loop in `translate_comparison_to_ocsf`
(lines 200-205). -/
def ocsfItemTriple (i : MapVal) (op : MapVal) (value : PVal) : Except Err Triple :=
  match i with
  | .mdict d => getMapTriple d "ocsf" op value
  | _ => .ok (i, op, value)

/-- The list loop of `translate_comparison_to_ocsf`; this function has no
`try`, so exceptions propagate. -/
def ocsfLoop : List MapVal → MapVal → PVal → Except Err (List Triple)
  | [], _, _ => .ok []
  | i :: rest, op, value => do
      let t ← ocsfItemTriple i op value
      let ts ← ocsfLoop rest op value
      .ok (t :: ts)

/-- Embedding of `translate_comparison_to_ocsf`
(`mapping/data_model.py` lines 162-206); a field that is absent, or whose
mapping is neither a string nor a list, yields the empty result. -/
def translateCompToOcsf (fmap : Entries) (field : String) (op : MapVal)
    (value : PVal) : Except Err (List Triple) :=
  match alistGet fmap field with
  | some (.mstr m) => .ok [(.mstr m, op, value)]
  | some (.mlist xs) => ocsfLoop xs op value
  | _ => .ok []

/-- Embedding of `_add_attr` (`mapping/data_model.py` lines 40-49).  Python
`value not in existing` on a string is a substring test (always true when the
strings are equal), on a list it is element equality, and on a dict it checks
keys; `list.append` on a dict raises `AttributeError`. -/
def addAttr (obj : Entries) (key value : String) : Except Err Entries :=
  match alistGet obj key with
  | none => .ok (alistSet obj key (.mstr value))
  | some (.mstr existing) =>
      if existing == value then .ok obj
      else .ok (alistSet obj key (.mlist [.mstr existing, .mstr value]))
  | some (.mlist xs) =>
      if xs.any (fun x => match x with | .mstr s => s == value | _ => false) then
        .ok obj
      else .ok (alistSet obj key (.mlist (xs ++ [.mstr value])))
  | some (.mdict d) =>
      if (alistGet d value).isSome then .ok obj else .error .attributeError

/-- Embedding of `_add_mapping` (`mapping/data_model.py` lines 18-29); a falsy
existing value counts as absent. -/
def addMapping (obj : Entries) (key : String) (mapping : Entries) : Entries :=
  let existing : List MapVal :=
    match alistGet obj key with
    | some mv =>
        if pyTruthy mv then
          match mv with
          | .mstr s => [MapVal.mdict [("ocsf_field", MapVal.mstr s)]]
          | .mdict d => [MapVal.mdict d]
          | .mlist xs => xs
        else []
    | none => []
  alistSet obj key (.mlist (existing ++ [MapVal.mdict mapping]))

/-- Embedding of `_reverse_dict` (`mapping/data_model.py` lines 32-37); a
non-string `native_field` cannot be a key of the embedded string-keyed dict
(lists and dicts are unhashable in Python). -/
def reverseDict (obj : Entries) (k : String) (v : Entries) : Except Err Entries :=
  match alistGet v "native_field" with
  | some (.mstr key) =>
      let mapping := v.filter (fun p => !(p.1 == "native_field"))
      .ok (addMapping obj key (alistSet mapping "ocsf_field" (.mstr k)))
  | some _ => .error .typeError
  | none => .error .keyError

/-- Embedding of `k = ".".join((prefix, k)) if prefix else k` in
`reverse_mapping`. -/
def extKey (pfx : Option String) (k : String) : String :=
  match pfx with
  | some p => if p == "" then k else p ++ "." ++ k
  | none => k

mutual

/-- Embedding of the entry loop of `reverse_mapping`
(`mapping/data_model.py` lines 52-94), structured on fuel (the Python
recursion is structural on the nested dict). -/
def reverseEntries : Nat → Entries → Option String → Entries → Except Err Entries
  | 0, _, _, _ => .error .fuelOut
  | _ + 1, [], _, acc => .ok acc
  | fuel + 1, (k, v) :: rest, pfx, acc => do
      let acc1 ← reverseItem fuel (extKey pfx k) v acc
      reverseEntries fuel rest pfx acc1

/-- One entry of `reverse_mapping`: a string leaf, a list of mappings, or a
dict that either is a record (`native_field` present) or another level. -/
def reverseItem : Nat → String → MapVal → Entries → Except Err Entries
  | 0, _, _, _ => .error .fuelOut
  | fuel + 1, k1, v, acc =>
      match v with
      | .mstr s => addAttr acc s k1
      | .mlist xs => reverseListItems fuel k1 xs acc
      | .mdict d =>
          if (alistGet d "native_field").isSome then reverseDict acc k1 d
          else reverseEntries fuel d (some k1) acc

/-- The list loop of `reverse_mapping` (lines 76-85): string items are added
as attributes, dict items are records or deeper levels, a nested list reaches
`reverse_mapping(i, ...)` whose `i.items()` raises `AttributeError` (unless
the `"native_field" in i` membership test happens to succeed on the list, in
which case `_reverse_dict` raises `TypeError` on the list index). -/
def reverseListItems : Nat → String → List MapVal → Entries → Except Err Entries
  | 0, _, _, _ => .error .fuelOut
  | _ + 1, _, [], acc => .ok acc
  | fuel + 1, k1, i :: rest, acc => do
      let acc1 ← reverseListItem fuel k1 i acc
      reverseListItems fuel k1 rest acc1

/-- The body of one iteration of the list loop (lines 79-85). -/
def reverseListItem : Nat → String → MapVal → Entries → Except Err Entries
  | 0, _, _, _ => .error .fuelOut
  | fuel + 1, k1, i, acc =>
      match i with
      | .mstr s => addAttr acc s k1
      | .mdict d =>
          if (alistGet d "native_field").isSome then reverseDict acc k1 d
          else reverseEntries fuel d (some k1) acc
      | .mlist ys =>
          if ys.any (fun x => match x with | .mstr s => s == "native_field" | _ => false)
          then .error .typeError
          else .error .attributeError

end

/-- Embedding of `reverse_mapping` (`mapping/data_model.py` lines 52-94),
entered with no prefix and an empty accumulator. -/
def reverseMapping (fuel : Nat) (obj : Entries) : Except Err Entries :=
  reverseEntries fuel obj none []

/-- A plain string leaf of a mapping: following `path` through nested
non-record dictionaries (no `native_field` key on the way) ends at the string
`s`. -/
def leafStrAt : Entries → List String → String → Bool
  | es, [k], s =>
      match alistGet es k with
      | some (.mstr x) => x == s
      | _ => false
  | es, k :: rest, s =>
      match alistGet es k with
      | some (.mdict sub) => (alistGet sub "native_field").isNone && leafStrAt sub rest s
      | _ => false
  | _, [], _ => false

/-- The flattened name `reverse_mapping` assigns to a leaf reached through
`path` starting from prefix `pfx`, built with the same
`".".join((prefix, k)) if prefix else k` step as the code. -/
def nameOf : Option String → List String → String
  | pfx, [k] => extKey pfx k
  | pfx, k :: rest => nameOf (some (extKey pfx k)) rest
  | pfx, [] => extKey pfx ""

/-- The top-level lookup `dmm.get(field)` is falsy or absent, so
`translate_comparison_to_native` takes its dotted-path fallback. -/
def fwdFalsyB (dmm : Entries) (field : String) : Bool :=
  match alistGet dmm field with
  | some mv => !pyTruthy mv
  | none => true

/-- The reversed-map value `mv` still lets `translate_comparison_to_ocsf`
recover the OCSF field `f` with the operator and value untouched: it is the
plain string `f`, or a list containing the string `f` or a pure
`{ocsf_field: f}` record. -/
def containsOcsf (mv : MapVal) (f : String) : Prop :=
  mv = .mstr f ∨
    ∃ xs, mv = .mlist xs ∧
      ((MapVal.mstr f) ∈ xs ∨
        ∃ d, (MapVal.mdict d) ∈ xs ∧ alistGet d "ocsf_field" = some (.mstr f) ∧
          alistGet d "ocsf_op" = none ∧ alistGet d "ocsf_value" = none)

/-- The reversed map binds native field `s` to a value from which the OCSF
field `f` is recoverable. -/
def reach (rev : Entries) (s f : String) : Prop :=
  ∃ mv, alistGet rev s = some mv ∧ containsOcsf mv f

/-- Invariant of the `reverse_mapping` accumulator: every value is a string or
a list (never a bare dict). -/
def accWF (acc : Entries) : Prop :=
  ∀ k mv, alistGet acc k = some mv → (∃ x, mv = .mstr x) ∨ (∃ xs, mv = .mlist xs)

theorem accWF_nil : accWF [] := by
  intro k mv h
  simp [alistGet] at h

theorem accWF_set_str (acc : Entries) (k x : String) (h : accWF acc) :
    accWF (alistSet acc k (.mstr x)) := by
  intro k1 mv hg
  by_cases hk : k1 = k
  · subst hk
    rw [alistGet_set_self] at hg
    exact Or.inl ⟨x, by injection hg with h2; exact h2.symm⟩
  · rw [alistGet_set_ne _ _ _ _ hk] at hg
    exact h k1 mv hg

theorem accWF_set_list (acc : Entries) (k : String) (xs : List MapVal) (h : accWF acc) :
    accWF (alistSet acc k (.mlist xs)) := by
  intro k1 mv hg
  by_cases hk : k1 = k
  · subst hk
    rw [alistGet_set_self] at hg
    exact Or.inr ⟨xs, by injection hg with h2; exact h2.symm⟩
  · rw [alistGet_set_ne _ _ _ _ hk] at hg
    exact h k1 mv hg

theorem addAttr_wf (acc : Entries) (key value : String) (acc2 : Entries)
    (hwf : accWF acc) (h : addAttr acc key value = .ok acc2) : accWF acc2 := by
  unfold addAttr at h
  cases hg : alistGet acc key with
  | none =>
    rw [hg] at h
    exact (Except.ok.injEq _ _).mp h ▸ accWF_set_str acc key value hwf
  | some mv =>
    rw [hg] at h
    match mv with
    | .mstr existing =>
      by_cases he : existing == value
      · simp only [he, if_true] at h
        exact (Except.ok.injEq _ _).mp h ▸ hwf
      · simp only [he, if_false] at h
        exact (Except.ok.injEq _ _).mp h ▸ accWF_set_list acc key _ hwf
    | .mlist xs =>
      by_cases he : xs.any (fun x => match x with | .mstr s => s == value | _ => false)
      · simp only [he, if_true] at h
        exact (Except.ok.injEq _ _).mp h ▸ hwf
      · simp only [he, if_false] at h
        exact (Except.ok.injEq _ _).mp h ▸ accWF_set_list acc key _ hwf
    | .mdict d =>
      rcases hwf key _ hg with ⟨x, hx⟩ | ⟨xs, hx⟩ <;> exact absurd hx (by simp)

theorem addMapping_wf (acc : Entries) (key : String) (mapping : Entries)
    (hwf : accWF acc) : accWF (addMapping acc key mapping) := by
  unfold addMapping
  exact accWF_set_list acc key _ hwf

theorem reverseDict_wf (acc : Entries) (k : String) (v : Entries) (acc2 : Entries)
    (hwf : accWF acc) (h : reverseDict acc k v = .ok acc2) : accWF acc2 := by
  unfold reverseDict at h
  cases hg : alistGet v "native_field" with
  | none => rw [hg] at h; exact absurd h (by simp)
  | some mv =>
    rw [hg] at h
    match mv with
    | .mstr key =>
      exact (Except.ok.injEq _ _).mp h ▸ addMapping_wf acc key _ hwf
    | .mlist xs => exact absurd h (by simp)
    | .mdict d => exact absurd h (by simp)

theorem reach_of_get {rev : Entries} {s f : String} {mv : MapVal}
    (hg : alistGet rev s = some mv) (hc : containsOcsf mv f) : reach rev s f :=
  ⟨mv, hg, hc⟩

theorem addAttr_estab (acc : Entries) (s f : String) (acc2 : Entries)
    (hwf : accWF acc) (h : addAttr acc s f = .ok acc2) : reach acc2 s f := by
  unfold addAttr at h
  cases hg : alistGet acc s with
  | none =>
    rw [hg] at h
    refine (Except.ok.injEq _ _).mp h ▸ reach_of_get (alistGet_set_self acc s _) ?_
    exact Or.inl rfl
  | some mv =>
    rw [hg] at h
    match mv with
    | .mstr existing =>
      by_cases he : existing == f
      · simp only [he, if_true] at h
        refine (Except.ok.injEq _ _).mp h ▸ reach_of_get hg ?_
        exact Or.inl (by rw [beq_iff_eq.mp he])
      · simp only [he, if_false] at h
        refine (Except.ok.injEq _ _).mp h ▸ reach_of_get (alistGet_set_self acc s _) ?_
        exact Or.inr ⟨_, rfl, Or.inl (by simp)⟩
    | .mlist xs =>
      by_cases he : xs.any (fun x => match x with | .mstr s => s == f | _ => false)
      · simp only [he, if_true] at h
        refine (Except.ok.injEq _ _).mp h ▸ reach_of_get hg ?_
        rcases List.any_eq_true.mp he with ⟨x, hx, hxx⟩
        refine Or.inr ⟨xs, rfl, Or.inl ?_⟩
        match x, hxx with
        | .mstr y, hy => exact (beq_iff_eq.mp hy) ▸ hx
      · simp only [he, if_false] at h
        refine (Except.ok.injEq _ _).mp h ▸ reach_of_get (alistGet_set_self acc s _) ?_
        exact Or.inr ⟨_, rfl, Or.inl (by simp)⟩
    | .mdict d =>
      rcases hwf s _ hg with ⟨x, hx⟩ | ⟨xs, hx⟩ <;> exact absurd hx (by simp)

theorem addAttr_reach (acc : Entries) (key value s f : String) (acc2 : Entries)
    (hr : reach acc s f) (h : addAttr acc key value = .ok acc2) : reach acc2 s f := by
  obtain ⟨mv, hg, hc⟩ := hr
  by_cases hk : s = key
  case neg =>
    -- a different key: the binding of s is untouched in every branch
    unfold addAttr at h
    split at h <;> try split at h
    all_goals first
      | (cases h; exact reach_of_get hg hc)
      | (cases h
         refine reach_of_get ?_ hc
         rw [alistGet_set_ne acc key s _ hk]
         exact hg)
      | exact absurd h (by simp)
  case pos =>
    subst hk
    unfold addAttr at h
    rw [hg] at h
    rcases hc with hc | ⟨xs, hxs, hmem⟩
    · subst hc
      by_cases he : f == value
      · simp only [he, if_true] at h
        cases h
        exact reach_of_get hg (Or.inl rfl)
      · simp only [he, if_false] at h
        cases h
        refine reach_of_get (alistGet_set_self acc s _) ?_
        exact Or.inr ⟨_, rfl, Or.inl (by simp)⟩
    · subst hxs
      by_cases he : xs.any (fun x => match x with | .mstr s => s == value | _ => false)
      · simp only [he, if_true] at h
        cases h
        exact reach_of_get hg (Or.inr ⟨xs, rfl, hmem⟩)
      · simp only [he, if_false] at h
        cases h
        refine reach_of_get (alistGet_set_self acc s _) ?_
        refine Or.inr ⟨xs ++ [.mstr value], rfl, ?_⟩
        rcases hmem with hmem | ⟨d, hd, h1, h2, h3⟩
        · exact Or.inl (List.mem_append_left _ hmem)
        · exact Or.inr ⟨d, List.mem_append_left _ hd, h1, h2, h3⟩

theorem addMapping_reach (acc : Entries) (key : String) (mapping : Entries)
    (s f : String) (hf : f ≠ "") (hr : reach acc s f) :
    reach (addMapping acc key mapping) s f := by
  obtain ⟨mv, hg, hc⟩ := hr
  by_cases hk : s = key
  case neg =>
    unfold addMapping
    refine reach_of_get ?_ hc
    rw [alistGet_set_ne acc key s _ hk, hg]
  case pos =>
    subst hk
    unfold addMapping
    rw [hg]
    rcases hc with hc | ⟨xs, hxs, hmem⟩
    · subst hc
      have ht : pyTruthy (.mstr f) = true := by
        simp [pyTruthy]
        intro hh
        exact hf hh
      simp only [ht, if_true]
      refine reach_of_get (alistGet_set_self acc s _) ?_
      refine Or.inr ⟨_, rfl, Or.inr ⟨[("ocsf_field", MapVal.mstr f)], ?_, by simp [alistGet], by simp [alistGet], by simp [alistGet]⟩⟩
      simp
    · subst hxs
      have hne : xs ≠ [] := by
        rcases hmem with hmem | ⟨d, hd, _⟩
        · exact List.ne_nil_of_mem hmem
        · exact List.ne_nil_of_mem hd
      have ht : pyTruthy (.mlist xs) = true := by
        simp [pyTruthy, List.isEmpty_iff]
        exact hne
      simp only [ht, if_true]
      refine reach_of_get (alistGet_set_self acc s _) ?_
      refine Or.inr ⟨_, rfl, ?_⟩
      rcases hmem with hmem | ⟨d, hd, h1, h2, h3⟩
      · exact Or.inl (List.mem_append_left _ hmem)
      · exact Or.inr ⟨d, List.mem_append_left _ hd, h1, h2, h3⟩

theorem reverseDict_reach (acc : Entries) (k : String) (v : Entries)
    (s f : String) (acc2 : Entries) (hf : f ≠ "") (hr : reach acc s f)
    (h : reverseDict acc k v = .ok acc2) : reach acc2 s f := by
  unfold reverseDict at h
  cases hg : alistGet v "native_field" with
  | none => rw [hg] at h; exact absurd h (by simp)
  | some mv =>
    rw [hg] at h
    match mv with
    | .mstr key =>
      exact (Except.ok.injEq _ _).mp h ▸ addMapping_reach acc key _ s f hf hr
    | .mlist xs => exact absurd h (by simp)
    | .mdict d => exact absurd h (by simp)

theorem ebind_ok {α β : Type} (a : α) (f : α → Except Err β) :
    (Except.ok a >>= f) = f a := rfl

theorem ebind_err {α β : Type} (e : Err) (f : α → Except Err β) :
    ((Except.error e : Except Err α) >>= f) = .error e := rfl

/-- Joint statement: the `reverse_mapping` traversal preserves the
accumulator well-formedness invariant. -/
def RevWFStmt (fuel : Nat) : Prop :=
  (∀ es pfx acc acc2, accWF acc → reverseEntries fuel es pfx acc = .ok acc2 → accWF acc2) ∧
  (∀ k1 v acc acc2, accWF acc → reverseItem fuel k1 v acc = .ok acc2 → accWF acc2) ∧
  (∀ k1 xs acc acc2, accWF acc → reverseListItems fuel k1 xs acc = .ok acc2 → accWF acc2) ∧
  (∀ k1 i acc acc2, accWF acc → reverseListItem fuel k1 i acc = .ok acc2 → accWF acc2)

theorem revWF : ∀ fuel, RevWFStmt fuel := by
  intro fuel
  induction fuel with
  | zero =>
    refine ⟨?_, ?_, ?_, ?_⟩
    · intro es pfx acc acc2 _ h
      simp [reverseEntries] at h
    · intro k1 v acc acc2 _ h
      simp [reverseItem] at h
    · intro k1 xs acc acc2 _ h
      simp [reverseListItems] at h
    · intro k1 i acc acc2 _ h
      simp [reverseListItem] at h
  | succ n ih =>
    obtain ⟨ihE, ihI, ihL, ihJ⟩ := ih
    refine ⟨?_, ?_, ?_, ?_⟩
    · intro es pfx acc acc2 hwf h
      match es with
      | [] =>
        simp only [reverseEntries] at h
        cases h
        exact hwf
      | (k, v) :: rest =>
        simp only [reverseEntries] at h
        cases hi : reverseItem n (extKey pfx k) v acc with
        | error e => rw [hi, ebind_err] at h; exact absurd h (by simp)
        | ok acc1 =>
          rw [hi, ebind_ok] at h
          exact ihE rest pfx acc1 acc2 (ihI _ _ _ _ hwf hi) h
    · intro k1 v acc acc2 hwf h
      match v with
      | .mstr s =>
        simp only [reverseItem] at h
        exact addAttr_wf acc s k1 acc2 hwf h
      | .mlist xs =>
        simp only [reverseItem] at h
        exact ihL k1 xs acc acc2 hwf h
      | .mdict d =>
        simp only [reverseItem] at h
        by_cases hn : (alistGet d "native_field").isSome
        · simp only [hn, if_true] at h
          exact reverseDict_wf acc k1 d acc2 hwf h
        · simp only [hn, if_false] at h
          exact ihE d (some k1) acc acc2 hwf h
    · intro k1 xs acc acc2 hwf h
      match xs with
      | [] =>
        simp only [reverseListItems] at h
        cases h
        exact hwf
      | i :: rest =>
        simp only [reverseListItems] at h
        cases hi : reverseListItem n k1 i acc with
        | error e => rw [hi, ebind_err] at h; exact absurd h (by simp)
        | ok acc1 =>
          rw [hi, ebind_ok] at h
          exact ihL k1 rest acc1 acc2 (ihJ _ _ _ _ hwf hi) h
    · intro k1 i acc acc2 hwf h
      match i with
      | .mstr s =>
        simp only [reverseListItem] at h
        exact addAttr_wf acc s k1 acc2 hwf h
      | .mlist ys =>
        simp only [reverseListItem] at h
        by_cases hy : ys.any (fun x => match x with | .mstr s => s == "native_field" | _ => false)
        · simp only [hy, if_true] at h
          exact absurd h (by simp)
        · simp only [hy, if_false] at h
          exact absurd h (by simp)
      | .mdict d =>
        simp only [reverseListItem] at h
        by_cases hn : (alistGet d "native_field").isSome
        · simp only [hn, if_true] at h
          exact reverseDict_wf acc k1 d acc2 hwf h
        · simp only [hn, if_false] at h
          exact ihE d (some k1) acc acc2 hwf h

/-- Joint statement: the `reverse_mapping` traversal preserves reachability of
an already-recorded OCSF field: once `acc` lets `translate_comparison_to_ocsf`
recover `f` from native field `s`, any further traversal keeps that. -/
def RevReachStmt (fuel : Nat) : Prop :=
  (∀ es pfx acc acc2 s f, f ≠ "" → accWF acc → reach acc s f →
      reverseEntries fuel es pfx acc = .ok acc2 → reach acc2 s f) ∧
  (∀ k1 v acc acc2 s f, f ≠ "" → accWF acc → reach acc s f →
      reverseItem fuel k1 v acc = .ok acc2 → reach acc2 s f) ∧
  (∀ k1 xs acc acc2 s f, f ≠ "" → accWF acc → reach acc s f →
      reverseListItems fuel k1 xs acc = .ok acc2 → reach acc2 s f) ∧
  (∀ k1 i acc acc2 s f, f ≠ "" → accWF acc → reach acc s f →
      reverseListItem fuel k1 i acc = .ok acc2 → reach acc2 s f)

theorem revReach : ∀ fuel, RevReachStmt fuel := by
  intro fuel
  induction fuel with
  | zero =>
    refine ⟨?_, ?_, ?_, ?_⟩
    · intro es pfx acc acc2 s f _ _ _ h
      simp [reverseEntries] at h
    · intro k1 v acc acc2 s f _ _ _ h
      simp [reverseItem] at h
    · intro k1 xs acc acc2 s f _ _ _ h
      simp [reverseListItems] at h
    · intro k1 i acc acc2 s f _ _ _ h
      simp [reverseListItem] at h
  | succ n ih =>
    obtain ⟨ihE, ihI, ihL, ihJ⟩ := ih
    have wfE := (revWF n).1
    have wfI := (revWF n).2.1
    have wfJ := (revWF n).2.2.2
    refine ⟨?_, ?_, ?_, ?_⟩
    · intro es pfx acc acc2 s f hf hwf hr h
      match es with
      | [] =>
        simp only [reverseEntries] at h
        cases h
        exact hr
      | (k, v) :: rest =>
        simp only [reverseEntries] at h
        cases hi : reverseItem n (extKey pfx k) v acc with
        | error e => rw [hi, ebind_err] at h; exact absurd h (by simp)
        | ok acc1 =>
          rw [hi, ebind_ok] at h
          exact ihE rest pfx acc1 acc2 s f hf (wfI _ _ _ _ hwf hi)
            (ihI _ _ _ _ _ _ hf hwf hr hi) h
    · intro k1 v acc acc2 s f hf hwf hr h
      match v with
      | .mstr x =>
        simp only [reverseItem] at h
        exact addAttr_reach acc x k1 s f acc2 hr h
      | .mlist xs =>
        simp only [reverseItem] at h
        exact ihL k1 xs acc acc2 s f hf hwf hr h
      | .mdict d =>
        simp only [reverseItem] at h
        by_cases hn : (alistGet d "native_field").isSome
        · simp only [hn, if_true] at h
          exact reverseDict_reach acc k1 d s f acc2 hf hr h
        · simp only [hn, if_false] at h
          exact ihE d (some k1) acc acc2 s f hf hwf hr h
    · intro k1 xs acc acc2 s f hf hwf hr h
      match xs with
      | [] =>
        simp only [reverseListItems] at h
        cases h
        exact hr
      | i :: rest =>
        simp only [reverseListItems] at h
        cases hi : reverseListItem n k1 i acc with
        | error e => rw [hi, ebind_err] at h; exact absurd h (by simp)
        | ok acc1 =>
          rw [hi, ebind_ok] at h
          exact ihL k1 rest acc1 acc2 s f hf (wfJ _ _ _ _ hwf hi)
            (ihJ _ _ _ _ _ _ hf hwf hr hi) h
    · intro k1 i acc acc2 s f hf hwf hr h
      match i with
      | .mstr x =>
        simp only [reverseListItem] at h
        exact addAttr_reach acc x k1 s f acc2 hr h
      | .mlist ys =>
        simp only [reverseListItem] at h
        by_cases hy : ys.any (fun x => match x with | .mstr s => s == "native_field" | _ => false)
        · simp only [hy, if_true] at h
          exact absurd h (by simp)
        · simp only [hy, if_false] at h
          exact absurd h (by simp)
      | .mdict d =>
        simp only [reverseListItem] at h
        by_cases hn : (alistGet d "native_field").isSome
        · simp only [hn, if_true] at h
          exact reverseDict_reach acc k1 d s f acc2 hf hr h
        · simp only [hn, if_false] at h
          exact ihE d (some k1) acc acc2 s f hf hwf hr h

/-- Establishment: when the traversal reaches a plain string leaf `s` along
`path`, the accumulator records the flattened name `nameOf pfx path` for the
native field `s`, and it stays recorded to the end. -/
theorem revEstab : ∀ fuel es pfx acc acc2 path s,
    accWF acc → nameOf pfx path ≠ "" → leafStrAt es path s = true →
    reverseEntries fuel es pfx acc = .ok acc2 → reach acc2 s (nameOf pfx path) := by
  intro fuel
  induction fuel using Nat.strong_induction_on with
  | _ fuel ih =>
    intro es pfx acc acc2 path s hwf hf hleaf h
    match fuel with
    | 0 => simp [reverseEntries] at h
    | n + 1 =>
      match es, path with
      | [], [k] => simp [leafStrAt, alistGet] at hleaf
      | [], k :: k2 :: rest => simp [leafStrAt, alistGet] at hleaf
      | [], [] => simp [leafStrAt] at hleaf
      | (k0, v0) :: restEs, path =>
        simp only [reverseEntries] at h
        cases hi : reverseItem n (extKey pfx k0) v0 acc with
        | error e => rw [hi, ebind_err] at h; exact absurd h (by simp)
        | ok acc1 =>
          rw [hi, ebind_ok] at h
          match path with
          | [] => simp [leafStrAt] at hleaf
          | k1 :: restPath =>
            by_cases hk : k0 = k1
            case pos =>
              subst hk
              -- the head entry is on the leaf path
              match restPath with
              | [] =>
                -- v0 is the string leaf s
                have hv : v0 = .mstr s := by
                  simp only [leafStrAt, alistGet, beq_self_eq_true, if_true] at hleaf
                  match v0, hleaf with
                  | .mstr x, hx => rw [beq_iff_eq.mp hx]
                subst hv
                match n, hi with
                | 0, hi => simp [reverseItem] at hi
                | m + 1, hi =>
                  simp only [reverseItem] at hi
                  have hn1 : nameOf pfx [k0] = extKey pfx k0 := rfl
                  have hr1 : reach acc1 s (nameOf pfx [k0]) := by
                    rw [hn1]
                    exact addAttr_estab acc s (extKey pfx k0) acc1 hwf hi
                  exact (revReach (m + 1)).1 restEs pfx acc1 acc2 s _ hf
                    (addAttr_wf acc s (extKey pfx k0) acc1 hwf hi) hr1 h
              | k2 :: rest2 =>
                -- v0 is a non-record dict continuing the path
                have hleaf2 : ∃ sub, v0 = .mdict sub ∧
                    (alistGet sub "native_field").isNone = true ∧
                    leafStrAt sub (k2 :: rest2) s = true := by
                  simp only [leafStrAt, alistGet, beq_self_eq_true, if_true] at hleaf
                  match v0, hleaf with
                  | .mdict sub, hx =>
                    exact ⟨sub, rfl, (Bool.and_eq_true _ _).mp hx |>.1,
                      (Bool.and_eq_true _ _).mp hx |>.2⟩
                obtain ⟨sub, hv, hnf, hsub⟩ := hleaf2
                subst hv
                match n, hi with
                | 0, hi => simp [reverseItem] at hi
                | m + 1, hi =>
                  simp only [reverseItem] at hi
                  rw [Option.isNone_iff_eq_none.mp hnf] at hi
                  simp only [Option.isSome_none, Bool.false_eq_true, if_false] at hi
                  have hname : nameOf pfx (k0 :: k2 :: rest2) =
                      nameOf (some (extKey pfx k0)) (k2 :: rest2) := rfl
                  have hr1 : reach acc1 s (nameOf pfx (k0 :: k2 :: rest2)) := by
                    rw [hname]
                    exact ih m (by omega) sub (some (extKey pfx k0)) acc acc1
                      (k2 :: rest2) s hwf (hname ▸ hf) hsub hi
                  exact (revReach (m + 1)).1 restEs pfx acc1 acc2 s _ hf
                    ((revWF m).1 _ _ _ _ hwf hi) hr1 h
            case neg =>
              -- the head entry is not on the leaf path; it only grows acc
              have hleaf2 : leafStrAt restEs (k1 :: restPath) s = true := by
                match restPath with
                | [] =>
                  simp only [leafStrAt, alistGet] at hleaf ⊢
                  rw [show (k0 == k1) = false from beq_eq_false_iff_ne.mpr hk] at hleaf
                  exact hleaf
                | k2 :: rest2 =>
                  simp only [leafStrAt, alistGet] at hleaf ⊢
                  rw [show (k0 == k1) = false from beq_eq_false_iff_ne.mpr hk] at hleaf
                  exact hleaf
              exact ih n (by omega) restEs pfx acc1 acc2 (k1 :: restPath) s
                ((revWF n).2.1 _ _ _ _ hwf hi) hf hleaf2 h

theorem ocsfLoop_mem_item {x : MapVal} {xs : List MapVal} {op : MapVal} {v : PVal}
    {l : List Triple} (hx : x ∈ xs) (h : ocsfLoop xs op v = .ok l) :
    ∃ t, ocsfItemTriple x op v = .ok t ∧ t ∈ l := by
  induction xs generalizing l with
  | nil => cases hx
  | cons y ys ihy =>
    simp only [ocsfLoop] at h
    cases ht : ocsfItemTriple y op v with
    | error e => rw [ht, ebind_err] at h; exact absurd h (by simp)
    | ok t =>
      rw [ht, ebind_ok] at h
      cases hl : ocsfLoop ys op v with
      | error e => rw [hl, ebind_err] at h; exact absurd h (by simp)
      | ok ts =>
        rw [hl, ebind_ok] at h
        cases h
        rcases List.mem_cons.mp hx with rfl | hmem
        · exact ⟨t, ht, List.mem_cons_self t ts⟩
        · obtain ⟨t2, ht2, htl⟩ := ihy hmem hl
          exact ⟨t2, ht2, List.mem_cons_of_mem t htl⟩

/-- When the reversed map can still see `f` under native field `s`, a
successful `translate_comparison_to_ocsf` contains the `(f, op, v)` triple. -/
theorem reachOut {rev : Entries} {s f : String} {op : MapVal} {v : PVal}
    {l : List Triple} (hr : reach rev s f)
    (h : translateCompToOcsf rev s op v = .ok l) : (MapVal.mstr f, op, v) ∈ l := by
  obtain ⟨mv, hg, hc⟩ := hr
  unfold translateCompToOcsf at h
  rw [hg] at h
  rcases hc with rfl | ⟨xs, rfl, hmem⟩
  · cases h
    exact List.mem_singleton.mpr rfl
  · rcases hmem with hmem | ⟨d, hd, h1, h2, h3⟩
    · obtain ⟨t, ht, htl⟩ := ocsfLoop_mem_item hmem h
      have : t = (MapVal.mstr f, op, v) := by
        simp only [ocsfItemTriple] at ht
        cases ht
        rfl
      exact this ▸ htl
    · obtain ⟨t, ht, htl⟩ := ocsfLoop_mem_item hd h
      have : t = (MapVal.mstr f, op, v) := by
        have e1 : ("ocsf" ++ "_op" : String) = "ocsf_op" := rfl
        have e2 : ("ocsf" ++ "_value" : String) = "ocsf_value" := rfl
        have e3 : ("ocsf" ++ "_field" : String) = "ocsf_field" := rfl
        simp only [ocsfItemTriple, getMapTriple, e1, e2, e3, h1, h2, h3,
          runTransformer, ebind_ok] at ht
        cases ht
        rfl
      exact this ▸ htl

theorem splitCharAux_ne_nil (sep : Char) : ∀ cs acc, splitCharAux sep cs acc ≠ [] := by
  intro cs
  induction cs with
  | nil => intro acc; simp [splitCharAux]
  | cons c rest ihc =>
    intro acc
    by_cases hc : c == sep
    · simp [splitCharAux, hc]
    · simp only [splitCharAux, hc, if_false]
      exact ihc (c :: acc)

theorem splitCharAux_singleton (sep : Char) :
    ∀ cs acc k, splitCharAux sep cs acc = [k] → k = String.mk (acc.reverse ++ cs) := by
  intro cs
  induction cs with
  | nil =>
    intro acc k h
    simp only [splitCharAux] at h
    cases h
    simp
  | cons c rest ihc =>
    intro acc k h
    by_cases hc : c == sep
    · simp only [splitCharAux, hc, if_true] at h
      have h2 := List.cons.injEq (String.mk acc.reverse) (splitCharAux sep rest []) k []
      rw [h2] at h
      exact absurd h.2 (splitCharAux_ne_nil sep rest [])
    · simp only [splitCharAux, hc, if_false] at h
      have := ihc (c :: acc) k h
      simpa using this

theorem pySplitDot_singleton (f k : String) (h : pySplitDot f = [k]) : k = f := by
  have := splitCharAux_singleton '.' f.data [] k h
  simpa using this

theorem leafStrAt_reduce : ∀ path (es : Entries) (s : String),
    leafStrAt es path s = true → reduceGetItem (.mdict es) path = .ok (.mstr s) := by
  intro path
  induction path with
  | nil => intro es s h; simp [leafStrAt] at h
  | cons k rest ihp =>
    intro es s h
    cases rest with
    | nil =>
      simp only [leafStrAt] at h
      cases hg : alistGet es k with
      | none => rw [hg] at h; simp at h
      | some mv =>
        rw [hg] at h
        match mv, h with
        | .mstr x, hx =>
          simp only [reduceGetItem, hg]
          rw [beq_iff_eq.mp hx]
    | cons k2 rest2 =>
      simp only [leafStrAt] at h
      cases hg : alistGet es k with
      | none => rw [hg] at h; simp at h
      | some mv =>
        rw [hg] at h
        match mv, h with
        | .mdict sub, hx =>
          simp only [reduceGetItem, hg]
          exact ihp sub s ((Bool.and_eq_true _ _).mp hx).2

/-- Forward direction: a plain string leaf reachable by the dotted-path
traversal translates to the single native triple `(s, op, v)`. -/
theorem toNative_of_leaf (m : Entries) (f s : String) (op : MapVal) (v : PVal)
    (hleaf : leafStrAt m (pySplitDot f) s = true)
    (hfb : 2 ≤ (pySplitDot f).length → fwdFalsyB m f = true) :
    translateCompToNative m f op v = .ok [(.mstr s, op, v)] := by
  cases hp : pySplitDot f with
  | nil => rw [hp] at hleaf; simp [leafStrAt] at hleaf
  | cons k rest =>
    cases rest with
    | nil =>
      have hk : k = f := pySplitDot_singleton f k hp
      subst hk
      rw [hp] at hleaf
      have hg : alistGet m k = some (.mstr s) := by
        simp only [leafStrAt] at hleaf
        cases hgv : alistGet m k with
        | none => rw [hgv] at hleaf; simp at hleaf
        | some mv =>
          rw [hgv] at hleaf
          match mv, hleaf with
          | .mstr x, hx => rw [beq_iff_eq.mp hx]
      unfold translateCompToNative
      rw [hg]
      cases hs : s == "" with
      | false =>
        simp only [pyTruthy, hs, Bool.not_false, if_true]
      | true =>
        simp only [pyTruthy, hs, Bool.not_true, Bool.false_eq_true, if_false]
        unfold nativeFallback nativeTryBody
        rw [hp, leafStrAt_reduce [k] m s (by rw [← hp] at hleaf; rw [hp] at hleaf; exact hleaf)]
    | cons k2 rest2 =>
      have hfb2 : fwdFalsyB m f = true := hfb (by rw [hp]; simp)
      have hfall : translateCompToNative m f op v = nativeFallback m f op v := by
        unfold translateCompToNative
        unfold fwdFalsyB at hfb2
        cases halist : alistGet m f with
        | none => rfl
        | some mv =>
          rw [halist] at hfb2
          have hft : pyTruthy mv = false := by simpa using hfb2
          simp [hft]
      rw [hfall]
      unfold nativeFallback nativeTryBody
      rw [hp, leafStrAt_reduce (k :: k2 :: rest2) m s (hp ▸ hleaf)]

/-- A falsy (or absent) top-level hit sends `translate_comparison_to_native`
to its dotted-path fallback. -/
theorem toNative_falsy (dmm : Entries) (f : String) (op : MapVal) (v : PVal)
    (hfb : fwdFalsyB dmm f = true) :
    translateCompToNative dmm f op v = nativeFallback dmm f op v := by
  unfold translateCompToNative
  unfold fwdFalsyB at hfb
  cases halist : alistGet dmm f with
  | none => rfl
  | some mv =>
    rw [halist] at hfb
    have hft : pyTruthy mv = false := by simpa using hfb
    simp [hft]

/-- Claim C1 (amended).  Mapping round-trip, restricted to leaves the dotted
traversal can actually see: if splitting `f` on `.` gives a key path that
reaches a plain string leaf `s` through non-record dictionaries, rejoining
that path gives back exactly `f` (so no key on the path contains a dot), `f`
is nonempty, and (when the path is nested) the top-level lookup of `f` is
falsy, then `translate_comparison_to_native` yields exactly `[(s, op, v)]`,
and whenever `translate_comparison_to_ocsf` on the reversed mapping succeeds
on that native triple, its result contains the original `(f, op, v)`. -/
theorem claim_C1_roundtrip_amended
    (fuel : Nat) (m : Entries) (f s : String) (op : MapVal) (v : PVal)
    (rev : Entries) (l : List Triple)
    (hne : f ≠ "")
    (hleaf : leafStrAt m (pySplitDot f) s = true)
    (hjoin : nameOf none (pySplitDot f) = f)
    (hfb : 2 ≤ (pySplitDot f).length → fwdFalsyB m f = true)
    (hrev : reverseMapping fuel m = .ok rev) :
    translateCompToNative m f op v = .ok [(.mstr s, op, v)] ∧
      (translateCompToOcsf rev s op v = .ok l → (MapVal.mstr f, op, v) ∈ l) := by
  constructor
  · exact toNative_of_leaf m f s op v hleaf hfb
  · intro hocsf
    unfold reverseMapping at hrev
    have hne2 : nameOf none (pySplitDot f) ≠ "" := by rw [hjoin]; exact hne
    have hreach := revEstab fuel m none [] rev (pySplitDot f) s accWF_nil hne2 hleaf hrev
    rw [hjoin] at hreach
    exact reachOut hreach hocsf

/-- Witness for C1 (amended): the ECS-style map `{"proc": {"name": "PName"}}`
round-trips the comparison `proc.name = "cmd"`. -/
theorem claim_C1_roundtrip_amended_witness :
    translateCompToNative [("proc", .mdict [("name", .mstr "PName")])] "proc.name"
        (.mstr "=") (.vstr "cmd") = .ok [(.mstr "PName", .mstr "=", .vstr "cmd")] ∧
      (MapVal.mstr "proc.name", MapVal.mstr "=", PVal.vstr "cmd") ∈
        [(MapVal.mstr "proc.name", MapVal.mstr "=", PVal.vstr "cmd")] :=
  have h := claim_C1_roundtrip_amended 9 [("proc", .mdict [("name", .mstr "PName")])]
    "proc.name" "PName" (.mstr "=") (.vstr "cmd") [("PName", .mstr "proc.name")]
    [(.mstr "proc.name", .mstr "=", .vstr "cmd")]
    (by decide) rfl rfl (fun _ => rfl) rfl
  ⟨h.1, h.2 rfl⟩

/-- Claim C1 (counterexample to the claim as stated): in the map
`{"a": {"b.c": "x"}}` the OCSF field `a.b.c` is present as a plain string
leaf (structural path `["a", "b.c"]`, flattened by `reverse_mapping` to
`a.b.c`), no value transformers are declared anywhere, yet the round trip
loses the comparison: `translate_comparison_to_native` passes the triple
through unchanged (the dotted lookup cannot see the key `b.c`), and
`translate_comparison_to_ocsf` of the resulting native triple returns `[]`,
which does not contain the original triple. -/
theorem claim_C1_counterexample :
    leafStrAt [("a", .mdict [("b.c", .mstr "x")])] ["a", "b.c"] "x" = true ∧
    nameOf none ["a", "b.c"] = "a.b.c" ∧
    translateCompToNative [("a", .mdict [("b.c", .mstr "x")])] "a.b.c"
      (.mstr "=") (.vstr "v") = .ok [(.mstr "a.b.c", .mstr "=", .vstr "v")] ∧
    reverseMapping 9 [("a", .mdict [("b.c", .mstr "x")])] = .ok [("x", .mstr "a.b.c")] ∧
    translateCompToOcsf [("x", .mstr "a.b.c")] "a.b.c" (.mstr "=") (.vstr "v") = .ok [] ∧
    (MapVal.mstr "a.b.c", MapVal.mstr "=", PVal.vstr "v") ∉ ([] : List Triple) :=
  ⟨rfl, rfl, rfl, rfl, rfl, by simp⟩

/-- Claim C10 (amended).  Asymmetry of unmapped fields: a field absent from
the flattened native-to-OCSF map translates to the empty list (dropped),
while `translate_comparison_to_native` passes the original triple through
when the top-level lookup is falsy and the dotted traversal fails with
`KeyError` (a traversal that steps into a non-dict raises `TypeError`
instead, see the counterexample). -/
theorem claim_C10_unmapped_asymmetry (fmap dmm : Entries) (f : String)
    (op : MapVal) (v : PVal)
    (habs : alistGet fmap f = none)
    (hfb : fwdFalsyB dmm f = true)
    (hkey : reduceGetItem (.mdict dmm) (pySplitDot f) = .error .keyError) :
    translateCompToOcsf fmap f op v = .ok [] ∧
      translateCompToNative dmm f op v = .ok [(.mstr f, op, v)] := by
  constructor
  · unfold translateCompToOcsf
    rw [habs]
  · rw [toNative_falsy dmm f op v hfb]
    unfold nativeFallback nativeTryBody
    rw [hkey]
    simp

/-- Witness for C10: the field `nope` is unmapped on both sides of the map
`{"a": "x"}` (whose reverse is `{"x": "a"}`). -/
theorem claim_C10_unmapped_asymmetry_witness :
    translateCompToOcsf [("x", .mstr "a")] "nope" (.mstr "=") (.vstr "v") = .ok [] ∧
      translateCompToNative [("a", .mstr "x")] "nope" (.mstr "=") (.vstr "v") =
        .ok [(.mstr "nope", .mstr "=", .vstr "v")] :=
  claim_C10_unmapped_asymmetry [("x", .mstr "a")] [("a", .mstr "x")] "nope"
    (.mstr "=") (.vstr "v") rfl rfl rfl

/-- Claim C10 (counterexample to the claim as stated): the field `a.b` is
absent from the forward map `{"a": "x"}`, but instead of passing the triple
through, `translate_comparison_to_native` raises `TypeError` (the dotted
traversal applies `dict.__getitem__` to the string leaf `"x"`). -/
theorem claim_C10_counterexample :
    alistGet [("a", MapVal.mstr "x")] "a.b" = none ∧
    translateCompToNative [("a", .mstr "x")] "a.b" (.mstr "=") (.vstr "v") =
      .error .typeError :=
  ⟨rfl, rfl⟩

/-- Modelled from the spec: comparison operator string values of
`kestrel/ir/filter.py` (`NumCompOp`, spec section 3). -/
def numOps : List String := ["=", "!=", "<", "<=", ">", ">="]

/-- Modelled from the spec: string comparison operator values (`StrCompOp`). -/
def strOps : List String := ["=", "!=", "LIKE", "NOT LIKE", "MATCHES", "NOT MATCHES"]

/-- Modelled from the spec: the filter-expression data model of
`kestrel/ir/filter.py` (not under the provided sources): basic comparisons
with a field (or, for reference comparisons, a field list), an operator
string, and a value. -/
inductive FComp where
  | intComp (field : String) (op : String) (value : PVal)
  | floatComp (field : String) (op : String) (value : PVal)
  | strComp (field : String) (op : String) (value : PVal)
  | listComp (field : String) (op : String) (value : PVal)
  | refComp (fields : List String) (op : String) (value : PVal)

/-- Boolean connective of `BoolExp` / `MultiComp`. -/
inductive ExpOp where
  | eand
  | eor
  deriving DecidableEq, Repr

/-- Modelled from the spec: filter expressions (`kestrel/ir/filter.py`):
`AbsoluteTrue`, binary boolean expressions, flat n-ary `MultiComp`, or a
basic comparison. -/
inductive FExp where
  | absTrue
  | boolExp (lhs : FExp) (op : ExpOp) (rhs : FExp)
  | multiComp (op : ExpOp) (comps : List FComp)
  | comp (c : FComp)

/-- Modelled from the spec: `TimeRange(start, stop)`; timestamps are opaque
tokens. -/
structure TimeRange where
  start : Option Nat
  stop : Option Nat

/-- Modelled from the spec: the payload of a `Filter` instruction. -/
structure KFilter where
  exp : FExp
  timerange : TimeRange

/-- The operator of a basic comparison. -/
def compOp : FComp → String
  | .intComp _ op _ => op
  | .floatComp _ op _ => op
  | .strComp _ op _ => op
  | .listComp _ op _ => op
  | .refComp _ op _ => op

/-- Whether a comparison is a `RefComparison`. -/
def isRefComp : FComp → Bool
  | .refComp _ _ _ => true
  | _ => false

/-- Whether a value is a `ReferenceValue`. -/
def isRefVal : PVal → Bool
  | .vref _ _ => true
  | _ => false

/-- Embedding of `_trim_ocsf_event_field` (`frontend/compile.py` lines
71-77). -/
def trimOcsfEventField (field : String) : String :=
  match pySplitDot field with
  | [] => field
  | first :: rest =>
      if pyEndsWith first "_event" || pyEndsWith first "_activity" then dotJoin rest
      else field

/-- Embedding of `_create_comp` (`frontend/compile.py` lines 81-108).  Enum
construction `op(op_value)` raises `ValueError` on an invalid member. -/
def createComp (field : String) (opValue : String) (value : PVal) :
    Except Err FComp :=
  if opValue == "IN" || opValue == "NOT IN" then
    match value with
    | .vref n a => .ok (.refComp [trimOcsfEventField field] opValue (.vref n a))
    | _ => .ok (.listComp (trimOcsfEventField field) opValue value)
  else
    match value with
    | .vint n =>
        if numOps.contains opValue then
          .ok (.intComp (trimOcsfEventField field) opValue (.vint n))
        else .error .valueError
    | .vfloat q =>
        if numOps.contains opValue then
          .ok (.floatComp (trimOcsfEventField field) opValue (.vfloat q))
        else .error .valueError
    | .vref n a =>
        let newOp := if opValue == "IN" || opValue == "=" then "IN" else "NOT IN"
        .ok (.refComp [trimOcsfEventField field] newOp (.vref n a))
    | _ =>
        if strOps.contains opValue then
          .ok (.strComp (trimOcsfEventField field) opValue value)
        else .error .valueError

/-- Claim C4.  Reference-valued comparisons are rewritten: a `ReferenceValue`
always yields a `RefComparison` whose operator is `IN` when the written
operator is `IN` or string equality `=`, and `NOT IN` when it is the
inequality `!=`; a comparison whose value is not a `ReferenceValue` keeps its
operator unchanged. -/
theorem claim_C4_refcomp_rewrite :
    (∀ (field op : String) (name : String) (attrs : List String) (c : FComp),
      createComp field op (.vref name attrs) = .ok c →
        isRefComp c = true ∧
        ((op = "IN" ∨ op = "=") → compOp c = "IN") ∧
        (op = "!=" → compOp c = "NOT IN")) ∧
    (∀ (field op : String) (v : PVal) (c : FComp),
      isRefVal v = false → createComp field op v = .ok c → compOp c = op) := by
  constructor
  · intro field op name attrs c h
    unfold createComp at h
    by_cases hin : op == "IN" || op == "NOT IN"
    · simp only [hin, if_true] at h
      cases h
      refine ⟨rfl, ?_, ?_⟩
      · intro hcase
        rcases hcase with rfl | rfl
        · rfl
        · rcases Bool.or_eq_true _ _ |>.mp hin with h2 | h2 <;> simp at h2
      · intro hcase
        subst hcase
        rcases Bool.or_eq_true _ _ |>.mp hin with h2 | h2 <;> simp at h2
    · simp only [hin, if_false] at h
      cases h
      refine ⟨rfl, ?_, ?_⟩
      · intro hcase
        have : (op == "IN" || op == "=") = true := by
          rcases hcase with rfl | rfl <;> simp
        simp only [compOp, this, if_true]
      · intro hcase
        subst hcase
        simp only [compOp]
        rfl
  · intro field op v c hv h
    unfold createComp at h
    by_cases hin : op == "IN" || op == "NOT IN"
    · simp only [hin, if_true] at h
      match v, hv, h with
      | .vstr s, _, h => cases h; rfl
      | .vint n, _, h => cases h; rfl
      | .vfloat q, _, h => cases h; rfl
      | .vlist xs, _, h => cases h; rfl
      | .vtuple xs, _, h => cases h; rfl
      | .vquery q, _, h => cases h; rfl
    · simp only [hin, if_false] at h
      match v, hv, h with
      | .vint n, _, h =>
        by_cases hn : numOps.contains op
        · simp only [hn, if_true] at h; cases h; rfl
        · simp only [hn, if_false] at h; exact absurd h (by simp)
      | .vfloat q, _, h =>
        by_cases hn : numOps.contains op
        · simp only [hn, if_true] at h; cases h; rfl
        · simp only [hn, if_false] at h; exact absurd h (by simp)
      | .vstr s, _, h =>
        by_cases hn : strOps.contains op
        · simp only [hn, if_true] at h; cases h; rfl
        · simp only [hn, if_false] at h; exact absurd h (by simp)
      | .vlist xs, _, h =>
        by_cases hn : strOps.contains op
        · simp only [hn, if_true] at h; cases h; rfl
        · simp only [hn, if_false] at h; exact absurd h (by simp)
      | .vtuple xs, _, h =>
        by_cases hn : strOps.contains op
        · simp only [hn, if_true] at h; cases h; rfl
        · simp only [hn, if_false] at h; exact absurd h (by simp)
      | .vquery q, _, h =>
        by_cases hn : strOps.contains op
        · simp only [hn, if_true] at h; cases h; rfl
        · simp only [hn, if_false] at h; exact absurd h (by simp)

/-- Witness for C4: `pid = px.pid` becomes a `RefComparison` with `IN`;
`name != "cmd.exe"` keeps its operator. -/
theorem claim_C4_refcomp_rewrite_witness :
    isRefComp (.refComp ["pid"] "IN" (.vref "px" ["pid"])) = true ∧
    compOp (.refComp ["pid"] "IN" (.vref "px" ["pid"])) = "IN" ∧
    compOp (.strComp "name" "!=" (.vstr "cmd.exe")) = "!=" :=
  have h1 := claim_C4_refcomp_rewrite.1 "pid" "=" "px" ["pid"]
    (.refComp ["pid"] "IN" (.vref "px" ["pid"])) rfl
  have h2 := claim_C4_refcomp_rewrite.2 "name" "!=" (.vstr "cmd.exe")
    (.strComp "name" "!=" (.vstr "cmd.exe")) rfl rfl
  ⟨h1.1, h1.2.1 (Or.inr rfl), h2⟩

/-- Embedding of the `comp2func` table (`interface/codegen/sql.py` lines
44-59); keys are the operator string values (the Python str-enums hash by
value, so `NumCompOp.EQ` and `StrCompOp.EQ` are one key), and an unknown
operator is a dict `KeyError`. -/
def comp2funcGet (op : String) : Option CompFn :=
  if op == "=" then some .feq
  else if op == "!=" then some .fne
  else if op == "<" then some .flt
  else if op == "<=" then some .fle
  else if op == ">" then some .fgt
  else if op == ">=" then some .fge
  else if op == "LIKE" then some .flike
  else if op == "NOT LIKE" then some .fnotlike
  else if op == "MATCHES" then some .fregexp
  else if op == "NOT MATCHES" then some .fregexp
  else if op == "IN" then some .fin
  else if op == "NOT IN" then some .fnotin
  else none

/-- The state of a `SqlTranslator` that rendering depends on: the optional
OCSF-to-native data mapping, the timestamp-formatting function and the
primary timestamp column. -/
structure TConfig where
  mapping : Option Entries
  timefmt : Nat → String
  timestamp : Option String

/-- Rendering of one translated triple inside `_render_comp`'s mapped branch
(lines 115-122): `~comp2func[op](column(field), value)` for `NMATCHES`, the
positive comparison otherwise; `column` requires a string field and
`comp2func` a known operator. -/
def renderTriple : Triple → Except Err SExpr
  | (fld, op, value) =>
      match fld, op with
      | .mstr f, .mstr o =>
          match comp2funcGet o with
          | some fn =>
              .ok (if o == "NOT MATCHES" then .snot (.scomp fn (.one f) value)
                   else .scomp fn (.one f) value)
          | none => .error .keyError
      | _, _ => .error .typeError

/-- Embedding of `reduce(or_, ...)`; reducing an empty sequence raises
`TypeError`. -/
def reduceOr : List SExpr → Except Err SExpr
  | [] => .error .typeError
  | e :: rest => .ok (rest.foldl SExpr.sor e)

/-- Embedding of `SqlTranslator._render_comp`
(`interface/codegen/sql.py` lines 101-131). -/
def renderComp (cfg : TConfig) (c : FComp) : Except Err SExpr :=
  match c with
  | .refComp fields op value =>
      -- no translation for a subquery comparison
      let col : ColRef :=
        match fields with
        | [f] => .one f
        | fs => .tup fs
      match comp2funcGet op with
      | some fn => .ok (.scomp fn col value)
      | none => .error .keyError
  | .intComp f op v | .floatComp f op v | .strComp f op v | .listComp f op v =>
      match cfg.mapping with
      | some dmm => do
          let comps ← translateCompToNative dmm f (.mstr op) v
          let rendered ← comps.mapM renderTriple
          reduceOr rendered
      | none =>
          match comp2funcGet op with
          | some fn =>
              .ok (if op == "NOT MATCHES" then .snot (.scomp fn (.one f) v)
                   else .scomp fn (.one f) v)
          | none => .error .keyError

/-- Embedding of `SqlTranslator._render_multi_comp` (lines 133-136). -/
def renderMulti (cfg : TConfig) (op : ExpOp) (comps : List FComp) :
    Except Err SExpr := do
  let es ← comps.mapM (renderComp cfg)
  match es with
  | [] => .error .typeError
  | e :: rest =>
      .ok (rest.foldl (if op = .eand then SExpr.sand else SExpr.sor) e)

/-- Embedding of `SqlTranslator._render_exp` together with the isinstance
dispatch it shares with `filter_to_selection` (lines 139-188). -/
def renderExpAny (cfg : TConfig) : FExp → Except Err SExpr
  | .absTrue => .ok .strue
  | .boolExp l op r => do
      let lhs ← renderExpAny cfg l
      let rhs ← renderExpAny cfg r
      .ok (if op = .eand then .sand lhs rhs else .sor lhs rhs)
  | .multiComp op comps => renderMulti cfg op comps
  | .comp c => renderComp cfg c

/-- Embedding of `SqlTranslator.filter_to_selection` (lines 164-188): a
present (truthy) time-range start wraps the filter expression as
`exp AND (ts >= fmt(start) AND ts < fmt(stop))`; without a start the filter
expression is rendered alone. -/
def filterToSelection (cfg : TConfig) (filt : KFilter) : Except Err SExpr :=
  match filt.timerange.start with
  | some t1 =>
      match cfg.timestamp, filt.timerange.stop with
      | some ts, some t2 =>
          let startComp : FComp := .strComp ts ">=" (.vstr (cfg.timefmt t1))
          let stopComp : FComp := .strComp ts "<" (.vstr (cfg.timefmt t2))
          let timeExp : FExp := .boolExp (.comp startComp) .eand (.comp stopComp)
          renderExpAny cfg (.boolExp filt.exp .eand timeExp)
      | _, _ => .error .typeError
  | none => renderExpAny cfg filt.exp

/-- Claim C5.  Half-open time-range rendering: with a (truthy) time-range
start, the rendered selection is the filter expression AND-ed with
`(ts >= fmt(start)) AND (ts < fmt(stop))` (closed at start, open at stop);
without a start the filter expression is rendered alone, unchanged. -/
theorem claim_C5_timerange_halfopen :
    (∀ (cfg : TConfig) (exp : FExp) (tr : TimeRange) (ts : String) (t1 t2 : Nat)
        (e : SExpr),
      cfg.mapping = none → cfg.timestamp = some ts →
      tr.start = some t1 → tr.stop = some t2 →
      renderExpAny cfg exp = .ok e →
      filterToSelection cfg ⟨exp, tr⟩ =
        .ok (.sand e (.sand (.scomp .fge (.one ts) (.vstr (cfg.timefmt t1)))
          (.scomp .flt (.one ts) (.vstr (cfg.timefmt t2)))))) ∧
    (∀ (cfg : TConfig) (exp : FExp) (tr : TimeRange),
      tr.start = none → filterToSelection cfg ⟨exp, tr⟩ = renderExpAny cfg exp) := by
  constructor
  · intro cfg exp tr ts t1 t2 e hmap hts h1 h2 he
    have hge : comp2funcGet ">=" = some .fge := rfl
    have hlt : comp2funcGet "<" = some .flt := rfl
    simp only [filterToSelection, h1, hts, h2, renderExpAny, renderComp, hmap,
      he, ebind_ok, hge, hlt]
    rfl
  · intro cfg exp tr h1
    simp only [filterToSelection, h1]

/-- Witness for C5: a concrete translator state and an `AbsoluteTrue` filter
with the time range `[1, 2)`. -/
theorem claim_C5_timerange_halfopen_witness :
    filterToSelection ⟨none, fun _ => "T", some "time"⟩
        ⟨.absTrue, ⟨some 1, some 2⟩⟩ =
      .ok (.sand .strue (.sand (.scomp .fge (.one "time") (.vstr "T"))
        (.scomp .flt (.one "time") (.vstr "T")))) ∧
    filterToSelection ⟨none, fun _ => "T", some "time"⟩ ⟨.absTrue, ⟨none, none⟩⟩ =
      renderExpAny ⟨none, fun _ => "T", some "time"⟩ .absTrue :=
  ⟨claim_C5_timerange_halfopen.1 ⟨none, fun _ => "T", some "time"⟩ .absTrue
      ⟨some 1, some 2⟩ "time" 1 2 .strue rfl rfl rfl rfl rfl,
    claim_C5_timerange_halfopen.2 ⟨none, fun _ => "T", some "time"⟩ .absTrue
      ⟨none, none⟩ rfl⟩

/-- Claim C8.  `NMATCHES` rendering: a string comparison with operator
`NOT MATCHES` renders as the negated regular-expression match, with and
without a data-model mapping in effect (for a mapping that preserves the
operator); every other operator renders without negation. -/
theorem claim_C8_nmatches_negation :
    (∀ (cfg : TConfig) (f : String) (v : PVal), cfg.mapping = none →
      renderComp cfg (.strComp f "NOT MATCHES" v) =
        .ok (.snot (.scomp .fregexp (.one f) v))) ∧
    (∀ (cfg : TConfig) (f : String) (v : PVal) (op : String) (fn : CompFn),
      cfg.mapping = none → op ≠ "NOT MATCHES" → comp2funcGet op = some fn →
      renderComp cfg (.strComp f op v) = .ok (.scomp fn (.one f) v)) ∧
    (∀ (cfg : TConfig) (dmm : Entries) (f g : String) (v : PVal),
      cfg.mapping = some dmm →
      translateCompToNative dmm f (.mstr "NOT MATCHES") v =
        .ok [(.mstr g, .mstr "NOT MATCHES", v)] →
      renderComp cfg (.strComp f "NOT MATCHES" v) =
        .ok (.snot (.scomp .fregexp (.one g) v))) := by
  refine ⟨?_, ?_, ?_⟩
  · intro cfg f v hmap
    simp only [renderComp, hmap]
    rfl
  · intro cfg f v op fn hmap hne hfn
    simp only [renderComp, hmap, hfn]
    rw [show (op == "NOT MATCHES") = false from beq_eq_false_iff_ne.mpr hne]
    simp
  · intro cfg dmm f g v hmap htr
    simp only [renderComp, hmap, htr, ebind_ok, List.mapM_cons, List.mapM_nil]
    have hrt : renderTriple (.mstr g, .mstr "NOT MATCHES", v) =
        .ok (.snot (.scomp .fregexp (.one g) v)) := rfl
    rw [hrt]
    rfl

/-- Witness for C8: concrete renderings with and without the mapping
`{"f1": "g1"}`. -/
theorem claim_C8_nmatches_negation_witness :
    renderComp ⟨none, fun _ => "", none⟩ (.strComp "c" "NOT MATCHES" (.vstr "p")) =
      .ok (.snot (.scomp .fregexp (.one "c") (.vstr "p"))) ∧
    renderComp ⟨none, fun _ => "", none⟩ (.strComp "c" "LIKE" (.vstr "p")) =
      .ok (.scomp .flike (.one "c") (.vstr "p")) ∧
    renderComp ⟨some [("f1", .mstr "g1")], fun _ => "", none⟩
        (.strComp "f1" "NOT MATCHES" (.vstr "p")) =
      .ok (.snot (.scomp .fregexp (.one "g1") (.vstr "p"))) :=
  ⟨claim_C8_nmatches_negation.1 ⟨none, fun _ => "", none⟩ "c" (.vstr "p") rfl,
    claim_C8_nmatches_negation.2.1 ⟨none, fun _ => "", none⟩ "c" (.vstr "p")
      "LIKE" .flike rfl (by decide) rfl,
    claim_C8_nmatches_negation.2.2 ⟨some [("f1", .mstr "g1")], fun _ => "", none⟩
      [("f1", .mstr "g1")] "f1" "g1" (.vstr "p") rfl rfl⟩

mutual

/-- Python `==` on embedded values (pandas cell equality): numbers compare
across int/float, strings structurally, lists and tuples elementwise (a list
never equals a tuple); reference and query objects compare by identity, which
distinct embedded occurrences cannot share. -/
def pvalEq : PVal → PVal → Bool
  | .vstr a, .vstr b => a == b
  | .vint a, .vint b => a == b
  | .vint a, .vfloat q => (a : Rat) == q
  | .vfloat q, .vint a => q == (a : Rat)
  | .vfloat a, .vfloat b => a == b
  | .vlist as, .vlist bs => pvalListEq as bs
  | .vtuple as, .vtuple bs => pvalListEq as bs
  | _, _ => false

/-- Elementwise Python `==` on sequences. -/
def pvalListEq : List PVal → List PVal → Bool
  | [], [] => true
  | a :: as, b :: bs => pvalEq a b && pvalListEq as bs
  | _, _ => false

end

/-- A pandas `DataFrame`: named columns over rows of cells. -/
structure DFrame where
  cols : List String
  rows : List (List PVal)

/-- Index of a column name (first occurrence). -/
def colIdx : List String → String → Option Nat
  | [], _ => none
  | c :: rest, name => if c == name then some 0 else (colIdx rest name).map (· + 1)

/-- Reading a cell; out-of-range reads an empty cell (structurally impossible
for well-formed frames). -/
def cellAt (row : List PVal) (i : Nat) : PVal :=
  row.getD i (.vstr "")

/-- Extracting a column as a list of cells (`df[c]`); a missing column raises
`KeyError`. -/
def dfGetCol (df : DFrame) (c : String) : Except Err (List PVal) :=
  match colIdx df.cols c with
  | some i => .ok (df.rows.map (fun r => cellAt r i))
  | none => .error .keyError

/-- Column index lookup that raises `KeyError` when absent. -/
def colIdxE (cols : List String) (c : String) : Except Err Nat :=
  match colIdx cols c with
  | some i => .ok i
  | none => .error .keyError

/-- Column subset selection `df[[c1, ..., cn]]`; a missing column raises
`KeyError`. -/
def dfSelect (df : DFrame) (cs : List String) : Except Err DFrame := do
  let idxs ← cs.mapM (colIdxE df.cols)
  .ok ⟨cs, df.rows.map (fun r => idxs.map (cellAt r))⟩

/-- Row equality under pandas cell equality. -/
def rowEq (a b : List PVal) : Bool :=
  pvalListEq a b

/-- `DataFrame.drop_duplicates()`: keep the first occurrence of each row,
preserving order (a row is dropped when an earlier kept row equals it). -/
def dedupRowsAux : List (List PVal) → List (List PVal) → List (List PVal)
  | _, [] => []
  | seen, r :: rest =>
      if seen.any (fun x => rowEq x r) then dedupRowsAux seen rest
      else r :: dedupRowsAux (r :: seen) rest

/-- `DataFrame.drop_duplicates()`. -/
def dedupRows (rows : List (List PVal)) : List (List PVal) :=
  dedupRowsAux [] rows

/-- Embedding of `_eval_ProjectEntity` (`interface/codegen/dataframe.py`
lines 80-85): keep the columns whose name starts with the OCSF base field
(note: without a trailing dot), strip `len(base) + 1` characters from each
kept name, then drop duplicate rows. -/
def evalProjectEntity (ocsfField : String) (df : DFrame) : Except Err DFrame := do
  let keep := df.cols.filter (fun c => pyStartsWith c ocsfField)
  let df1 ← dfSelect df keep
  let renamed := df1.cols.map (fun c => pyDrop c (ocsfField.data.length + 1))
  .ok ⟨renamed, dedupRows df1.rows⟩

/-- Embedding of `_eval_ProjectAttrs` (lines 74-76). -/
def evalProjectAttrs (attrs : List String) (df : DFrame) : Except Err DFrame :=
  dfSelect df attrs

/-- Embedding of `_eval_Limit` (lines 69-71). -/
def evalLimit (n : Nat) (df : DFrame) : DFrame :=
  ⟨df.cols, df.rows.take n⟩

/-- Python ordered comparison on cells, as used by `operator.lt` and friends:
numbers compare across int/float, strings lexicographically; other mixes
raise `TypeError` (ordered sequence comparison is not exercised by the
claims and is modelled as an error). -/
def pvalLt (a b : PVal) : Except Err Bool :=
  match a, b with
  | .vint x, .vint y => .ok (decide (x < y))
  | .vint x, .vfloat y => .ok (decide ((x : Rat) < y))
  | .vfloat x, .vint y => .ok (decide (x < (y : Rat)))
  | .vfloat x, .vfloat y => .ok (decide (x < y))
  | .vstr x, .vstr y => .ok (decide (x < y))
  | _, _ => .error .typeError

/-- Python `x in w` membership: list/tuple membership by `==`, substring test
for strings, `TypeError` otherwise. -/
def pyIn (x w : PVal) : Except Err Bool :=
  match w with
  | .vlist xs => .ok (xs.any (pvalEq x))
  | .vtuple xs => .ok (xs.any (pvalEq x))
  | .vstr hay =>
      match x with
      | .vstr needle =>
          .ok (if needle == "" then true else decide (2 ≤ (hay.splitOn needle).length))
      | _ => .error .typeError
  | _ => .error .typeError

/-- The `LIKE` pattern rewrite of the frame evaluator (lines 144-149):
`w.replace(".", "\\.").replace("%", ".*?")`. -/
def likePattern (w : String) : String :=
  (w.replace "." "\\.").replace "%" ".*?"

/-- Embedding of the `comp2func` table of `_eval_Filter_exp_Comparison`
(`interface/codegen/dataframe.py` lines 135-154), applied as
`functools.partial(comp2func[c.op], c.value)`, so the comparison value comes
first and the cell second.  The regular-expression search of the `re` module
is an external collaborator, passed in as `reSearch`. -/
def compFuncDf (reSearch : String → String → Bool) (op : String) (w x : PVal) :
    Except Err Bool :=
  if op == "=" then .ok (pvalEq w x)
  else if op == "!=" then .ok (!pvalEq w x)
  else if op == "<" then pvalLt x w      -- operator.gt, value first
  else if op == "<=" then (pvalLt w x).map (fun b => !b)  -- operator.ge
  else if op == ">" then pvalLt w x      -- operator.lt, value first
  else if op == ">=" then (pvalLt x w).map (fun b => !b)  -- operator.le
  else if op == "LIKE" then
    match w, x with
    | .vstr p, .vstr s => .ok (reSearch (likePattern p) s)
    | _, _ => .error .typeError
  else if op == "NOT LIKE" then
    match w, x with
    | .vstr p, .vstr s => .ok (!reSearch (likePattern p) s)
    | _, _ => .error .typeError
  else if op == "MATCHES" then
    match w, x with
    | .vstr p, .vstr s => .ok (reSearch p s)
    | _, _ => .error .typeError
  else if op == "NOT MATCHES" then
    match w, x with
    | .vstr p, .vstr s => .ok (!reSearch p s)
    | _, _ => .error .typeError
  else if op == "IN" then pyIn x w
  else if op == "NOT IN" then (pyIn x w).map (fun b => !b)
  else .error .keyError

/-- Embedding of `_eval_Filter_exp_Comparison`
(`interface/codegen/dataframe.py` lines 129-193).  The DataFrame-to-list
conversion of a subquery-produced value (lines 159-163) applies before this
point; values here are already lists.  For a multi-column `RefComparison` the
guard checks that the value is a list, that its first element is a tuple and
that the tuple arity matches the field count (an empty value list raises
`IndexError` at `c.value[0]`); then the operator must be `IN`/`NOT IN`; then
a composite-key membership test runs per row. -/
def evalFilterCompDf (reSearch : String → String → Bool) (c : FComp)
    (df : DFrame) : Except Err (List Bool) :=
  match c with
  | .refComp fields op value =>
      match fields with
      | [f] => do
          let col ← dfGetCol df f
          col.mapM (fun cell => compFuncDf reSearch op value cell)
      | fs =>
          match value with
          | .vlist xs =>
              match xs with
              | [] => .error .indexError
              | x0 :: _ =>
                  match x0 with
                  | .vtuple t0 =>
                      if fs.length == t0.length then
                        if op == "IN" || op == "NOT IN" then do
                          let idxs ← fs.mapM (colIdxE df.cols)
                          let bools := df.rows.map (fun r =>
                            xs.any (pvalEq (.vtuple (idxs.map (cellAt r)))))
                          .ok (if op == "IN" then bools else bools.map (!·))
                        else .error .invalidOperator
                      else .error .mismatchedFieldValue
                  | _ => .error .mismatchedFieldValue
          | _ => .error .mismatchedFieldValue
  | .intComp f op v | .floatComp f op v | .strComp f op v | .listComp f op v => do
      let col ← dfGetCol df f
      col.mapM (fun cell => compFuncDf reSearch op v cell)

/-- Embedding of `_eval_Filter_exp` and `_eval_Filter_exp_BoolExp`
(lines 93-126).  The `MultiComp` branch passes `exp.comps` (a list) back into
the `@typechecked` `_eval_Filter_exp`, whose annotation check raises. -/
def evalFilterExpDf (reSearch : String → String → Bool) :
    FExp → DFrame → Except Err (List Bool)
  | .absTrue, df => .ok (List.replicate df.rows.length true)
  | .boolExp l op r, df => do
      let a ← evalFilterExpDf reSearch l df
      let b ← evalFilterExpDf reSearch r df
      .ok (match op with
        | .eand => (List.zip a b).map (fun p => p.1 && p.2)
        | .eor => (List.zip a b).map (fun p => p.1 || p.2))
  | .multiComp _ _, _ => .error .typeError
  | .comp c, df => evalFilterCompDf reSearch c df

/-- Boolean-mask row selection `df[mask]`. -/
def maskFilter : List (List PVal) → List Bool → List (List PVal)
  | r :: rs, b :: bs => if b then r :: maskFilter rs bs else maskFilter rs bs
  | _, _ => []

/-- Embedding of `_eval_Filter` (lines 88-90). -/
def evalFilterDf (reSearch : String → String → Bool) (f : KFilter)
    (df : DFrame) : Except Err DFrame := do
  let bs ← evalFilterExpDf reSearch f.exp df
  .ok ⟨df.cols, maskFilter df.rows bs⟩

theorem maskFilter_replicate_true : ∀ rows : List (List PVal),
    maskFilter rows (List.replicate rows.length true) = rows := by
  intro rows
  induction rows with
  | nil => rfl
  | cons r rest ih =>
    simp only [List.length_cons, List.replicate, maskFilter, if_true]
    rw [ih]

/-- Claim C9.  Filtering with `AbsoluteTrue` is the identity on frames: the
expression evaluates to an all-True mask of the frame's length, and applying
the filter returns the frame unchanged. -/
theorem claim_C9_abstrue_identity (reSearch : String → String → Bool)
    (tr : TimeRange) (df : DFrame) :
    evalFilterExpDf reSearch .absTrue df = .ok (List.replicate df.rows.length true) ∧
      evalFilterDf reSearch ⟨.absTrue, tr⟩ df = .ok df := by
  constructor
  · rfl
  · simp only [evalFilterDf, evalFilterExpDf, ebind_ok]
    rw [maskFilter_replicate_true]

/-- Claim C7 (evaluation at the failing input).  `_eval_ProjectEntity` with
base field `process` keeps the column `processes` as well: the code filters
on `startswith("process")` without the trailing dot (while stripping
`len("process") + 1` characters and while the SQL twin in
`interface/codegen/sql.py` filters on `base + "."`), so a column that merely
begins with the base string survives, renamed to a garbled name. -/
theorem claim_C7_project_entity_prefix_bug :
    evalProjectEntity "process" ⟨["processes", "process.name"],
        [[.vstr "a", .vstr "b"]]⟩ =
      .ok ⟨["s", "name"], [[.vstr "a", .vstr "b"]]⟩ ∧
    pyStartsWith "processes" "process." = false :=
  ⟨rfl, rfl⟩

/-- Claim C6 (counterexample to the claim as stated): with fields
`["a", "b"]` and the value `[(1, 2), 7]` — not a list of tuples of matching
arity, since `7` is no tuple — the claim demands
`MismatchedFieldValueInMultiColumnComparison`, but the code checks only the
first element, passes the guard, and raises
`InvalidOperatorInMultiColumnComparison` for the operator `=`. -/
theorem claim_C6_counterexample :
    evalFilterCompDf (fun _ _ => false)
        (.refComp ["a", "b"] "=" (.vlist [.vtuple [.vint 1, .vint 2], .vint 7]))
        ⟨["a", "b"], []⟩ =
      .error .invalidOperator ∧
    Err.invalidOperator ≠ Err.mismatchedFieldValue :=
  ⟨rfl, by decide⟩

theorem epure {α : Type} (a : α) : (pure a : Except Err α) = .ok a := rfl

theorem mapM_colIdx_cases (cs cols : List String) :
    (∃ idxs, cs.mapM (colIdxE cols) = .ok idxs) ∨
      cs.mapM (colIdxE cols) = .error Err.keyError := by
  induction cs with
  | nil => exact Or.inl ⟨[], rfl⟩
  | cons c rest ih =>
    simp only [List.mapM_cons]
    cases hc : colIdxE cols c with
    | error e =>
      have he : e = Err.keyError := by
        unfold colIdxE at hc
        cases h2 : colIdx cols c <;> rw [h2] at hc <;> simp at hc
        exact hc.symm
      right
      rw [he, ebind_err]
    | ok i =>
      rw [ebind_ok]
      rcases ih with ⟨idxs, hok⟩ | herr
      · left
        exact ⟨i :: idxs, by rw [hok, ebind_ok, epure]⟩
      · right
        rw [herr, ebind_err]

/-- Claim C6 (amended).  Multi-column reference comparison in the frame
evaluator, with the guard as the code actually checks it (only the first
element of the value list is inspected): for a nonempty list value whose
first element is a tuple of matching arity,
`InvalidOperatorInMultiColumnComparison` is raised exactly when the operator
is neither `IN` nor `NOT IN`; `MismatchedFieldValueInMultiColumnComparison`
is raised when the value is not a list, or its first element is not a tuple
of the same arity as the field list; an empty list value raises `IndexError`
before either check. -/
theorem claim_C6_multicolumn_errors_amended
    (reSearch : String → String → Bool) (f1 f2 : String) (fsRest : List String)
    (op : String) (value : PVal) (df : DFrame) :
    (∀ t0 xs, value = .vlist (.vtuple t0 :: xs) → t0.length = fsRest.length + 2 →
      (evalFilterCompDf reSearch (.refComp (f1 :: f2 :: fsRest) op value) df =
          .error .invalidOperator ↔ ¬(op = "IN" ∨ op = "NOT IN"))) ∧
    (value = .vlist [] →
      evalFilterCompDf reSearch (.refComp (f1 :: f2 :: fsRest) op value) df =
        .error .indexError) ∧
    ((∀ xs, value ≠ .vlist xs) →
      evalFilterCompDf reSearch (.refComp (f1 :: f2 :: fsRest) op value) df =
        .error .mismatchedFieldValue) ∧
    (∀ x0 xs, value = .vlist (x0 :: xs) → (∀ t0, x0 ≠ .vtuple t0) →
      evalFilterCompDf reSearch (.refComp (f1 :: f2 :: fsRest) op value) df =
        .error .mismatchedFieldValue) ∧
    (∀ t0 xs, value = .vlist (.vtuple t0 :: xs) → t0.length ≠ fsRest.length + 2 →
      evalFilterCompDf reSearch (.refComp (f1 :: f2 :: fsRest) op value) df =
        .error .mismatchedFieldValue) := by
  refine ⟨?_, ?_, ?_, ?_, ?_⟩
  · intro t0 xs hval hlen
    subst hval
    simp only [evalFilterCompDf]
    have hleq : ((f1 :: f2 :: fsRest).length == t0.length) = true := by
      simp [hlen]
    rw [hleq]
    simp only [if_true]
    constructor
    · intro heq
      intro hop
      have hcond : (op == "IN" || op == "NOT IN") = true := by
        rcases hop with rfl | rfl <;> simp
      rw [hcond] at heq
      simp only [if_true] at heq
      rcases mapM_colIdx_cases (f1 :: f2 :: fsRest) df.cols with ⟨idxs, hok⟩ | herr
      · rw [hok, ebind_ok] at heq
        exact absurd heq (by simp)
      · rw [herr, ebind_err] at heq
        exact absurd heq (by simp)
    · intro hop
      have hcond : (op == "IN" || op == "NOT IN") = false := by
        push_neg at hop
        simp only [Bool.or_eq_false_iff]
        exact ⟨beq_eq_false_iff_ne.mpr hop.1, beq_eq_false_iff_ne.mpr hop.2⟩
      rw [hcond]
      simp
  · intro hval
    subst hval
    rfl
  · intro hnl
    match value, hnl with
    | .vstr s, _ => rfl
    | .vint n, _ => rfl
    | .vfloat q, _ => rfl
    | .vtuple t, _ => rfl
    | .vref n a, _ => rfl
    | .vquery q, _ => rfl
    | .vlist xs, hnl => exact absurd rfl (hnl xs)
  · intro x0 xs hval hnt
    subst hval
    match x0, hnt with
    | .vstr s, _ => rfl
    | .vint n, _ => rfl
    | .vfloat q, _ => rfl
    | .vlist t, _ => rfl
    | .vref n a, _ => rfl
    | .vquery q, _ => rfl
    | .vtuple t, hnt => exact absurd rfl (hnt t)
  · intro t0 xs hval hlen
    subst hval
    simp only [evalFilterCompDf]
    have hleq : ((f1 :: f2 :: fsRest).length == t0.length) = false := by
      simp only [List.length_cons]
      exact beq_eq_false_iff_ne.mpr (by omega)
    rw [hleq]
    simp

/-- Witness for C6 (amended): two fields against concrete values. -/
theorem claim_C6_multicolumn_errors_amended_witness :
    evalFilterCompDf (fun _ _ => false)
        (.refComp ["a", "b"] "=" (.vlist [.vtuple [.vint 1, .vint 2]]))
        ⟨["a", "b"], []⟩ = .error .invalidOperator ∧
    evalFilterCompDf (fun _ _ => false)
        (.refComp ["a", "b"] "IN" (.vlist [])) ⟨["a", "b"], []⟩ =
      .error .indexError ∧
    evalFilterCompDf (fun _ _ => false)
        (.refComp ["a", "b"] "IN" (.vlist [.vint 5])) ⟨["a", "b"], []⟩ =
      .error .mismatchedFieldValue :=
  have h := claim_C6_multicolumn_errors_amended (fun _ _ => false) "a" "b" [] "="
    (.vlist [.vtuple [.vint 1, .vint 2]]) ⟨["a", "b"], []⟩
  have h2 := claim_C6_multicolumn_errors_amended (fun _ _ => false) "a" "b" [] "IN"
    (.vlist []) ⟨["a", "b"], []⟩
  have h3 := claim_C6_multicolumn_errors_amended (fun _ _ => false) "a" "b" [] "IN"
    (.vlist [.vint 5]) ⟨["a", "b"], []⟩
  ⟨(h.1 [.vint 1, .vint 2] [] rfl rfl).mpr (by simp),
    h2.2.1 rfl,
    h3.2.2.2.1 (.vint 5) [] rfl (fun t0 => by simp)⟩

/-- Nat-keyed association lookup (UUID-keyed Python dicts; ids are embedded
as naturals). -/
def nlistGet {α : Type} : List (Nat × α) → Nat → Option α
  | [], _ => none
  | (k, v) :: rest, key => if k == key then some v else nlistGet rest key

/-- Nat-keyed association update. -/
def nlistSet {α : Type} : List (Nat × α) → Nat → α → List (Nat × α)
  | [], key, v => [(key, v)]
  | (k, w) :: rest, key, v =>
      if k == key then (k, v) :: rest else (k, w) :: nlistSet rest key v

theorem nlistGet_set_self {α : Type} (l : List (Nat × α)) (k : Nat) (v : α) :
    nlistGet (nlistSet l k v) k = some v := by
  induction l with
  | nil => simp [nlistSet, nlistGet]
  | cons p rest ih =>
    obtain ⟨k0, v0⟩ := p
    by_cases h : k0 == k
    · simp [nlistSet, nlistGet, h]
    · simp [nlistSet, nlistGet, h, ih]

theorem nlistGet_set_ne {α : Type} (l : List (Nat × α)) (k k1 : Nat) (v : α)
    (h : k1 ≠ k) : nlistGet (nlistSet l k v) k1 = nlistGet l k1 := by
  induction l with
  | nil => simp [nlistSet, nlistGet, Ne.symm h]
  | cons p rest ih =>
    obtain ⟨k0, v0⟩ := p
    by_cases h0 : k0 = k
    · subst h0
      simp [nlistSet, nlistGet, Ne.symm h]
    · simp only [nlistSet, beq_iff_eq, h0, if_false]
      simp only [nlistGet, ih]

/-- Modelled from the spec: the instruction kinds of
`kestrel/ir/instructions.py` (spec section 3; the module is not under the
provided sources).  `Construct` and `DataSource` are source instructions;
`Variable`, `ProjectEntity`, `ProjectAttrs`, `Limit`, `Offset`, `Sort`,
`Return` and `Explain` are sole-predecessor transforming instructions;
`Filter` is multi-predecessor; `Reference` is its own kind. -/
inductive Instr where
  | construct (data : List (List (String × PVal))) (entity : Option String)
  | dataSource (name : String)
  | varI (name : String)
  | filterI (f : KFilter)
  | projAttrsI (attrs : List String)
  | projEntityI (ocsfField : String) (nativeField : String)
  | limitI (n : Nat)
  | offsetI (n : Nat)
  | sortI (attr : String) (asc : Bool)
  | retI
  | explainI
  | refI (name : String)

/-- Modelled from the spec: the IR graph (`kestrel/ir/graph.py`): identified
nodes and payload-free directed edges. -/
structure Graph where
  nodes : List (Nat × Instr)
  edges : List (Nat × Nat)

/-- Predecessors of a node, in edge-list order. -/
def gpreds (g : Graph) (n : Nat) : List Nat :=
  (g.edges.filter (fun e => e.2 == n)).map (fun e => e.1)

/-- Modelled from the spec (section 4.C, invariant 3): a branch predecessor
of a `Filter` is a `ProjectAttrs` fed by the `Variable` (or still-unresolved
`Reference`) it projects, keyed by that variable name. -/
def branchName (g : Graph) (p : Nat) : Option String :=
  match nlistGet g.nodes p with
  | some (.projAttrsI _) =>
      match gpreds g p with
      | [q] =>
          match nlistGet g.nodes q with
          | some (.varI name) => some name
          | some (.refI name) => some name
          | _ => none
      | _ => none
  | _ => none

/-- Modelled from the spec: `IRGraph.get_trunk_n_branches` (section 4.C):
the unique non-branch predecessor is the trunk; branch heads are keyed by
their variable names; any other shape violates the structural invariants. -/
def getTrunkNBranches (g : Graph) (n : Nat) :
    Except Err (Nat × List (String × Nat)) :=
  let ps := gpreds g n
  let branches := ps.filterMap (fun p => (branchName g p).map (fun nm => (nm, p)))
  match ps.filter (fun p => (branchName g p).isNone) with
  | [t] => .ok (t, branches)
  | _ => .error .invalidGraph

/-- The mutable state of one `SqlCache` evaluation: the cache catalog
(instruction id to backing table), the per-call `subquery_memory`
(instruction id to translator), and the heap of live translator objects
(so that the aliasing of memoized translators is observable). -/
structure EvalSt where
  catalog : List (Nat × String)
  memory : List (Nat × Nat)
  store : List (Nat × SQuery)
  ncount : Nat

/-- The backing-table name of a cached instruction (`instruction_id.hex`). -/
def idHex (i : Nat) : String :=
  "tbl" ++ toString i

/-- The query a fresh translator starts with:
`select("*").select_from(from_clause).distinct()`
(`interface/codegen/sql.py` line 99). -/
def baseQuery (src : SFrom) : SQuery :=
  .mk src none [] true none none []

/-- Allocate a fresh translator over `src` (`SqlCacheTranslator(...)`). -/
def newTranslator (src : SFrom) (st : EvalSt) : Nat × EvalSt :=
  (st.ncount,
    ⟨st.catalog, st.memory, nlistSet st.store st.ncount (baseQuery src),
      st.ncount + 1⟩)

/-- Read a translator's current query. -/
def readQuery (st : EvalSt) (tid : Nat) : SQuery :=
  (nlistGet st.store tid).getD (baseQuery (.stable ""))

/-- Overwrite a translator's query (`self.query = ...`). -/
def writeQuery (st : EvalSt) (tid : Nat) (q : SQuery) : EvalSt :=
  ⟨st.catalog, st.memory, nlistSet st.store tid q, st.ncount⟩

/-- Query updates of the translator instruction handlers
(`interface/codegen/sql.py` lines 190-243). -/
def addWhere : SQuery → SExpr → SQuery
  | .mk src cols wheres dtc lim off ord, e => .mk src cols (wheres ++ [e]) dtc lim off ord

/-- Embedding of `with_only_columns` for `add_ProjectAttrs`. -/
def withOnlyCols : SQuery → List (String × Option String) → SQuery
  | .mk src _ wheres dtc lim off ord, cs => .mk src (some cs) wheres dtc lim off ord

/-- Embedding of `query.limit(n)`. -/
def withLimit : SQuery → Nat → SQuery
  | .mk src cols wheres dtc _ off ord, n => .mk src cols wheres dtc (some n) off ord

/-- Embedding of `query.offset(n)`. -/
def withOffset : SQuery → Nat → SQuery
  | .mk src cols wheres dtc lim _ ord, n => .mk src cols wheres dtc lim (some n) ord

/-- Embedding of `query.order_by(...)`. -/
def withOrder : SQuery → String → Bool → SQuery
  | .mk src cols wheres dtc lim off ord, a, asc => .mk src cols wheres dtc lim off (ord ++ [(a, asc)])

/-- Embedding of `SqlTranslator.add_instruction` dispatch for the
instructions the evaluator feeds through it; the cache translator carries no
source schema, so `add_ProjectEntity` raises `SourceSchemaNotFound`, and a
kind without an `add_...` method fails. -/
def addInstructionQ (cfg : TConfig) (i : Instr) (q : SQuery) : Except Err SQuery :=
  match i with
  | .filterI f => do
      let sel ← filterToSelection cfg f
      .ok (addWhere q sel)
  | .projAttrsI attrs => .ok (withOnlyCols q (attrs.map (fun a => (a, none))))
  | .projEntityI _ _ => .error .sourceSchemaNotFound
  | .limitI n => .ok (withLimit q n)
  | .offsetI n => .ok (withOffset q n)
  | .sortI a asc => .ok (withOrder q a asc)
  | _ => .error .notImplementedError

mutual

/-- Embedding of `SqlCache._evaluate_instruction_in_graph`
(`cache/sql.py` lines 123-216), on fuel.  An instruction already in the
cache catalog gets a fresh translator over its backing table; a `Construct`
materializes its data (catalog write) and gets a fresh translator; for a
transforming instruction the `subquery_memory` is consulted first, and on a
miss the trunk is planned recursively, after which `Return`/`Explain` pass
through, a `Variable` memoizes the (pre-CTE) trunk translator and returns a
fresh translator over `translator.query.cte(name)`, a `Filter` resolves its
references to branch subqueries and is added to the trunk translator, and
the remaining transforming kinds go through `add_instruction`. -/
def evalIIG : Nat → Graph → TConfig → Nat → EvalSt → Except Err (Nat × EvalSt)
  | 0, _, _, _, _ => .error .fuelOut
  | fuel + 1, g, cfg, iid, st =>
      match nlistGet st.catalog iid with
      | some tableName => .ok (newTranslator (.stable tableName) st)
      | none =>
          match nlistGet g.nodes iid with
          | none => .error .invalidGraph
          | some instr =>
              match instr with
              | .construct _ _ =>
                  let st1 : EvalSt :=
                    ⟨nlistSet st.catalog iid (idHex iid), st.memory, st.store, st.ncount⟩
                  .ok (newTranslator (.stable (idHex iid)) st1)
              | .dataSource _ => .error .notImplementedError
              | .refI _ => .error .notImplementedError
              | other =>
                  match nlistGet st.memory iid with
                  | some tid => .ok (tid, st)
                  | none => do
                      let (trunk, r2n) ← getTrunkNBranches g iid
                      let (tid, st1) ← evalIIG fuel g cfg trunk st
                      match other with
                      | .retI => .ok (tid, st1)
                      | .explainI => .ok (tid, st1)
                      | .varI name =>
                          let q := readQuery st1 tid
                          let st2 : EvalSt :=
                            ⟨st1.catalog, nlistSet st1.memory iid tid, st1.store, st1.ncount⟩
                          .ok (newTranslator (.scte name q) st2)
                      | .filterI f => do
                          let (exp1, st2) ← resolveExpSt fuel g cfg r2n f.exp st1
                          let sel ← filterToSelection cfg ⟨exp1, f.timerange⟩
                          .ok (tid, writeQuery st2 tid (addWhere (readQuery st2 tid) sel))
                      | other2 => do
                          let q1 ← addInstructionQ cfg other2 (readQuery st1 tid)
                          .ok (tid, writeQuery st1 tid q1)

/-- Modelled from the spec (section 4.A): `resolve_references` substitutes
the value produced by the resolver for each `ReferenceValue`, in deep-copied
filter state; here the resolver is the evaluator lambda of `cache/sql.py`
lines 201-205, which plans the branch head and takes its translator's
query. -/
def resolveValSt : Nat → Graph → TConfig → List (String × Nat) → PVal → EvalSt →
    Except Err (PVal × EvalSt)
  | 0, _, _, _, _, _ => .error .fuelOut
  | fuel + 1, g, cfg, r2n, v, st =>
      match v with
      | .vref name _ =>
          match alistGet r2n name with
          | some bid => do
              let (btid, st1) ← evalIIG fuel g cfg bid st
              .ok (.vquery (readQuery st1 btid), st1)
          | none => .error .keyError
      | other => .ok (other, st)

/-- Reference substitution on one basic comparison. -/
def resolveCompSt : Nat → Graph → TConfig → List (String × Nat) → FComp → EvalSt →
    Except Err (FComp × EvalSt)
  | 0, _, _, _, _, _ => .error .fuelOut
  | fuel + 1, g, cfg, r2n, c, st =>
      match c with
      | .intComp f op v => do
          let (v1, st1) ← resolveValSt fuel g cfg r2n v st
          .ok (.intComp f op v1, st1)
      | .floatComp f op v => do
          let (v1, st1) ← resolveValSt fuel g cfg r2n v st
          .ok (.floatComp f op v1, st1)
      | .strComp f op v => do
          let (v1, st1) ← resolveValSt fuel g cfg r2n v st
          .ok (.strComp f op v1, st1)
      | .listComp f op v => do
          let (v1, st1) ← resolveValSt fuel g cfg r2n v st
          .ok (.listComp f op v1, st1)
      | .refComp fs op v => do
          let (v1, st1) ← resolveValSt fuel g cfg r2n v st
          .ok (.refComp fs op v1, st1)

/-- Reference substitution on a comparison list (`MultiComp`). -/
def resolveCompsSt : Nat → Graph → TConfig → List (String × Nat) → List FComp →
    EvalSt → Except Err (List FComp × EvalSt)
  | 0, _, _, _, _, _ => .error .fuelOut
  | _ + 1, _, _, _, [], st => .ok ([], st)
  | fuel + 1, g, cfg, r2n, c :: cs, st => do
      let (c1, st1) ← resolveCompSt fuel g cfg r2n c st
      let (cs1, st2) ← resolveCompsSt fuel g cfg r2n cs st1
      .ok (c1 :: cs1, st2)

/-- Reference substitution on a filter expression. -/
def resolveExpSt : Nat → Graph → TConfig → List (String × Nat) → FExp → EvalSt →
    Except Err (FExp × EvalSt)
  | 0, _, _, _, _, _ => .error .fuelOut
  | fuel + 1, g, cfg, r2n, exp, st =>
      match exp with
      | .absTrue => .ok (.absTrue, st)
      | .boolExp l op r => do
          let (l1, st1) ← resolveExpSt fuel g cfg r2n l st
          let (r1, st2) ← resolveExpSt fuel g cfg r2n r st1
          .ok (.boolExp l1 op r1, st2)
      | .multiComp op comps => do
          let (cs1, st1) ← resolveCompsSt fuel g cfg r2n comps st
          .ok (.multiComp op cs1, st1)
      | .comp c => do
          let (c1, st1) ← resolveCompSt fuel g cfg r2n c st
          .ok (.comp c1, st1)

end

/-- Embedding of `SqlCache.evaluate_graph` for one sink
(`cache/sql.py` lines 90-105): a fresh `subquery_memory` (and fresh
translator objects) per call; the cache catalog persists on the cache
object.  The returned query is what `read_sql(translator.result(), ...)`
executes. -/
def evaluateGraphSink (fuel : Nat) (g : Graph) (cfg : TConfig) (sinkId : Nat)
    (catalog : List (Nat × String)) : Except Err (SQuery × EvalSt) := do
  let (tid, st) ← evalIIG fuel g cfg sinkId ⟨catalog, [], [], 0⟩
  .ok (readQuery st tid, st)

/-- Modelled from the spec (section 3, Lifecycles, and section 4.A):
evaluation never mutates the caller's graph — `resolve_references` operates
on deep-cloned filter state — so a session-level evaluation hands back the
graph it was given, unchanged, together with the produced query and the
updated cache catalog. -/
def evaluateGraphSession (fuel : Nat) (g : Graph) (cfg : TConfig) (sinkId : Nat)
    (catalog : List (Nat × String)) :
    Except Err (SQuery × Graph × List (Nat × String)) := do
  let (q, st) ← evaluateGraphSink fuel g cfg sinkId catalog
  .ok (q, g, st.catalog)

/-- Whether a comparison value is free of `ReferenceValue`s. -/
def compValue : FComp → PVal
  | .intComp _ _ v => v
  | .floatComp _ _ v => v
  | .strComp _ _ v => v
  | .listComp _ _ v => v
  | .refComp _ _ v => v

/-- A filter expression containing no `ReferenceValue` as a comparison
value. -/
def noRefValues : FExp → Bool
  | .absTrue => true
  | .boolExp l _ r => noRefValues l && noRefValues r
  | .multiComp _ cs => cs.all (fun c => !isRefVal (compValue c))
  | .comp c => !isRefVal (compValue c)

mutual

/-- Sum a source-node scoring function over every FROM object inside a
query, descending into CTE bodies and subquery values. -/
def cntQ : Nat → (SFrom → Nat) → SQuery → Nat
  | 0, _, _ => 0
  | fuel + 1, f, .mk src _ wheres _ _ _ _ => cntF fuel f src + cntEs fuel f wheres

/-- Source-node scoring of one FROM object. -/
def cntF : Nat → (SFrom → Nat) → SFrom → Nat
  | 0, _, _ => 0
  | fuel + 1, f, src =>
      f src +
        match src with
        | .scte _ body => cntQ fuel f body
        | .stable _ => 0

/-- Source-node scoring over WHERE conjuncts. -/
def cntEs : Nat → (SFrom → Nat) → List SExpr → Nat
  | 0, _, _ => 0
  | _ + 1, _, [] => 0
  | fuel + 1, f, e :: rest => cntE fuel f e + cntEs fuel f rest

/-- Source-node scoring of one boolean expression. -/
def cntE : Nat → (SFrom → Nat) → SExpr → Nat
  | 0, _, _ => 0
  | fuel + 1, f, e =>
      match e with
      | .strue => 0
      | .scomp _ _ v => cntV fuel f v
      | .snot e1 => cntE fuel f e1
      | .sand l r => cntE fuel f l + cntE fuel f r
      | .sor l r => cntE fuel f l + cntE fuel f r

/-- Source-node scoring of one value. -/
def cntV : Nat → (SFrom → Nat) → PVal → Nat
  | 0, _, _ => 0
  | fuel + 1, f, v =>
      match v with
      | .vquery q => cntQ fuel f q
      | .vlist xs => cntVs fuel f xs
      | .vtuple xs => cntVs fuel f xs
      | _ => 0

/-- Source-node scoring over a value list. -/
def cntVs : Nat → (SFrom → Nat) → List PVal → Nat
  | 0, _, _ => 0
  | _ + 1, _, [] => 0
  | fuel + 1, f, v :: rest => cntV fuel f v + cntVs fuel f rest

end

/-- Number of CTE definitions with the given name inside a query. -/
def cteCount (fuel : Nat) (name : String) (q : SQuery) : Nat :=
  cntQ fuel (fun s => match s with
    | .scte n _ => if n == name then 1 else 0
    | _ => 0) q

/-- Number of direct raw-table reads of the given table inside a query. -/
def tableCount (fuel : Nat) (name : String) (q : SQuery) : Nat :=
  cntQ fuel (fun s => match s with
    | .stable n => if n == name then 1 else 0
    | _ => 0) q

/-- The double-use graph of `test_double_deref_in_cache`: one `Construct`
(node 1) feeding `Variable proclist` (node 2), which is used twice inside a
single sink evaluation — as the trunk of the final filter (node 6) and, via
`Filter`/`Variable px`/`ProjectAttrs` (nodes 3, 4, 5), as the branch that
resolves the reference `px.pid`; then `Variable chrome` (node 7) and
`Return` (node 8). -/
def exGraphC2 : Graph :=
  ⟨[(1, .construct [] (some "process")),
    (2, .varI "proclist"),
    (3, .filterI ⟨.comp (.strComp "name" "!=" (.vstr "cmd.exe")), ⟨none, none⟩⟩),
    (4, .varI "px"),
    (5, .projAttrsI ["pid"]),
    (6, .filterI ⟨.comp (.refComp ["pid"] "IN" (.vref "px" ["pid"])), ⟨none, none⟩⟩),
    (7, .varI "chrome"),
    (8, .retI)],
   [(1, 2), (2, 3), (3, 4), (4, 5), (2, 6), (5, 6), (6, 7), (7, 8)]⟩

/-- The query the evaluator actually produces for `exGraphC2`: the second
use of `proclist` (the `px` branch) was built on the memoized pre-CTE trunk
translator, so the `px` CTE body reads the raw table `tbl1` again instead of
referring to the CTE `proclist`. -/
def exQueryC2 : SQuery :=
  .mk (.scte "chrome"
    (.mk (.scte "proclist" (.mk (.stable "tbl1") none [] true none none []))
      none
      [.scomp .fin (.one "pid")
        (.vquery (.mk (.scte "px"
            (.mk (.stable "tbl1") none
              [.scomp .fne (.one "name") (.vstr "cmd.exe")] true none none []))
          (some [("pid", none)]) [] true none none []))]
      true none none []))
    none [] true none none []

/-- Claim C2 (evaluation at the failing input).  In a single
`evaluate_graph` call on `exGraphC2`, the `Variable proclist` (node 2) has
two uses, and the upstream subgraph is indeed translated once with exactly
one CTE named `proclist` in the final SQL — but the second use does not
refer to that CTE: the memory hit returns the memoized pre-CTE trunk
translator itself (`cache/sql.py` lines 173-176, against its own comment
"just create a new use/translator from this Variable"), so the raw backing
table `tbl1` is read twice and the CTE `proclist` is referenced only
once. -/
theorem claim_C2_cte_memoization_bug :
    (evaluateGraphSink 99 exGraphC2 ⟨none, fun _ => "", some "time"⟩ 8 []).map
        (fun p => p.1) = .ok exQueryC2 ∧
    (exGraphC2.edges.filter (fun e => e.1 == 2)).length = 2 ∧
    cteCount 99 "proclist" exQueryC2 = 1 ∧
    tableCount 99 "tbl1" exQueryC2 = 2 :=
  ⟨rfl, rfl, rfl, rfl⟩

/-- Joint statement: reference resolution leaves no `ReferenceValue` in the
substituted expression. -/
def ResolveNoRefStmt (fuel : Nat) : Prop :=
  (∀ g cfg r2n v st v1 st1,
    resolveValSt fuel g cfg r2n v st = .ok (v1, st1) → isRefVal v1 = false) ∧
  (∀ g cfg r2n c st c1 st1,
    resolveCompSt fuel g cfg r2n c st = .ok (c1, st1) → isRefVal (compValue c1) = false) ∧
  (∀ g cfg r2n cs st cs1 st1,
    resolveCompsSt fuel g cfg r2n cs st = .ok (cs1, st1) →
      cs1.all (fun c => !isRefVal (compValue c)) = true) ∧
  (∀ g cfg r2n exp st exp1 st1,
    resolveExpSt fuel g cfg r2n exp st = .ok (exp1, st1) → noRefValues exp1 = true)

theorem resolveNoRef : ∀ fuel, ResolveNoRefStmt fuel := by
  intro fuel
  induction fuel with
  | zero =>
    refine ⟨?_, ?_, ?_, ?_⟩
    · intro g cfg r2n v st v1 st1 h
      simp [resolveValSt] at h
    · intro g cfg r2n c st c1 st1 h
      simp [resolveCompSt] at h
    · intro g cfg r2n cs st cs1 st1 h
      simp [resolveCompsSt] at h
    · intro g cfg r2n exp st exp1 st1 h
      simp [resolveExpSt] at h
  | succ n ih =>
    obtain ⟨ihV, ihC, ihCs, ihE⟩ := ih
    refine ⟨?_, ?_, ?_, ?_⟩
    · intro g cfg r2n v st v1 st1 h
      match v with
      | .vref name attrs =>
        simp only [resolveValSt] at h
        cases hb : alistGet r2n name with
        | none => simp only [hb] at h; exact absurd h (by simp)
        | some bid =>
          simp only [hb] at h
          cases he : evalIIG n g cfg bid st with
          | error e => rw [he, ebind_err] at h; exact absurd h (by simp)
          | ok p =>
            rw [he, ebind_ok] at h
            cases h
            rfl
      | .vstr s => simp only [resolveValSt] at h; cases h; rfl
      | .vint m => simp only [resolveValSt] at h; cases h; rfl
      | .vfloat q => simp only [resolveValSt] at h; cases h; rfl
      | .vlist xs => simp only [resolveValSt] at h; cases h; rfl
      | .vtuple xs => simp only [resolveValSt] at h; cases h; rfl
      | .vquery q => simp only [resolveValSt] at h; cases h; rfl
    · intro g cfg r2n c st c1 st1 h
      match c with
      | .intComp f op v =>
        simp only [resolveCompSt] at h
        cases hv : resolveValSt n g cfg r2n v st with
        | error e => rw [hv, ebind_err] at h; exact absurd h (by simp)
        | ok p =>
          rw [hv, ebind_ok] at h
          cases h
          exact ihV g cfg r2n v st p.1 p.2 (by rw [hv])
      | .floatComp f op v =>
        simp only [resolveCompSt] at h
        cases hv : resolveValSt n g cfg r2n v st with
        | error e => rw [hv, ebind_err] at h; exact absurd h (by simp)
        | ok p =>
          rw [hv, ebind_ok] at h
          cases h
          exact ihV g cfg r2n v st p.1 p.2 (by rw [hv])
      | .strComp f op v =>
        simp only [resolveCompSt] at h
        cases hv : resolveValSt n g cfg r2n v st with
        | error e => rw [hv, ebind_err] at h; exact absurd h (by simp)
        | ok p =>
          rw [hv, ebind_ok] at h
          cases h
          exact ihV g cfg r2n v st p.1 p.2 (by rw [hv])
      | .listComp f op v =>
        simp only [resolveCompSt] at h
        cases hv : resolveValSt n g cfg r2n v st with
        | error e => rw [hv, ebind_err] at h; exact absurd h (by simp)
        | ok p =>
          rw [hv, ebind_ok] at h
          cases h
          exact ihV g cfg r2n v st p.1 p.2 (by rw [hv])
      | .refComp fs op v =>
        simp only [resolveCompSt] at h
        cases hv : resolveValSt n g cfg r2n v st with
        | error e => rw [hv, ebind_err] at h; exact absurd h (by simp)
        | ok p =>
          rw [hv, ebind_ok] at h
          cases h
          exact ihV g cfg r2n v st p.1 p.2 (by rw [hv])
    · intro g cfg r2n cs st cs1 st1 h
      match cs with
      | [] =>
        simp only [resolveCompsSt] at h
        cases h
        rfl
      | c :: rest =>
        simp only [resolveCompsSt] at h
        cases hc : resolveCompSt n g cfg r2n c st with
        | error e => rw [hc, ebind_err] at h; exact absurd h (by simp)
        | ok p =>
          rw [hc, ebind_ok] at h
          cases hr : resolveCompsSt n g cfg r2n rest p.2 with
          | error e => rw [hr, ebind_err] at h; exact absurd h (by simp)
          | ok p2 =>
            rw [hr, ebind_ok] at h
            cases h
            simp only [List.all_cons, Bool.and_eq_true]
            refine ⟨?_, ihCs g cfg r2n rest p.2 p2.1 p2.2 (by rw [hr])⟩
            have := ihC g cfg r2n c st p.1 p.2 (by rw [hc])
            simp [this]
    · intro g cfg r2n exp st exp1 st1 h
      match exp with
      | .absTrue =>
        simp only [resolveExpSt] at h
        cases h
        rfl
      | .boolExp l op r =>
        simp only [resolveExpSt] at h
        cases hl : resolveExpSt n g cfg r2n l st with
        | error e => rw [hl, ebind_err] at h; exact absurd h (by simp)
        | ok p =>
          rw [hl, ebind_ok] at h
          cases hr : resolveExpSt n g cfg r2n r p.2 with
          | error e => rw [hr, ebind_err] at h; exact absurd h (by simp)
          | ok p2 =>
            rw [hr, ebind_ok] at h
            cases h
            simp only [noRefValues, Bool.and_eq_true]
            exact ⟨ihE g cfg r2n l st p.1 p.2 (by rw [hl]),
              ihE g cfg r2n r p.2 p2.1 p2.2 (by rw [hr])⟩
      | .multiComp op comps =>
        simp only [resolveExpSt] at h
        cases hc : resolveCompsSt n g cfg r2n comps st with
        | error e => rw [hc, ebind_err] at h; exact absurd h (by simp)
        | ok p =>
          rw [hc, ebind_ok] at h
          cases h
          simp only [noRefValues]
          exact ihCs g cfg r2n comps st p.1 p.2 (by rw [hc])
      | .comp c =>
        simp only [resolveExpSt] at h
        cases hc : resolveCompSt n g cfg r2n c st with
        | error e => rw [hc, ebind_err] at h; exact absurd h (by simp)
        | ok p =>
          rw [hc, ebind_ok] at h
          cases h
          simp only [noRefValues]
          have := ihC g cfg r2n c st p.1 p.2 (by rw [hc])
          simp [this]

/-- The cache catalog maps only `Construct` nodes, always to their hex
backing-table name (the only writes `evaluate_graph` performs). -/
def catOnly (g : Graph) (c : List (Nat × String)) : Prop :=
  ∀ i n, nlistGet c i = some n →
    n = idHex i ∧ ∃ data et, nlistGet g.nodes i = some (.construct data et)

/-- Simulation relation between two catalogs: both well-formed, the second
containing the first. -/
def catRel (g : Graph) (c c2 : List (Nat × String)) : Prop :=
  catOnly g c ∧ catOnly g c2 ∧ ∀ i n, nlistGet c i = some n → nlistGet c2 i = some n

theorem catRel_refl {g : Graph} {c : List (Nat × String)} (h : catOnly g c) :
    catRel g c c :=
  ⟨h, h, fun _ _ hn => hn⟩

theorem catOnly_set {g : Graph} {c : List (Nat × String)} {iid : Nat}
    {data : List (List (String × PVal))} {et : Option String}
    (hc : catOnly g c) (hn : nlistGet g.nodes iid = some (.construct data et)) :
    catOnly g (nlistSet c iid (idHex iid)) := by
  intro i n hg
  by_cases hi : i = iid
  · subst hi
    rw [nlistGet_set_self] at hg
    cases hg
    exact ⟨rfl, data, et, hn⟩
  · rw [nlistGet_set_ne _ _ _ _ hi] at hg
    exact hc i n hg

theorem catRel_set_both {g : Graph} {c c2 : List (Nat × String)} {iid : Nat}
    {data : List (List (String × PVal))} {et : Option String}
    (hr : catRel g c c2) (hn : nlistGet g.nodes iid = some (.construct data et)) :
    catRel g (nlistSet c iid (idHex iid)) (nlistSet c2 iid (idHex iid)) := by
  obtain ⟨h1, h2, h3⟩ := hr
  refine ⟨catOnly_set h1 hn, catOnly_set h2 hn, ?_⟩
  intro i n hg
  by_cases hi : i = iid
  · subst hi
    rw [nlistGet_set_self] at hg ⊢
    exact hg
  · rw [nlistGet_set_ne _ _ _ _ hi] at hg ⊢
    exact h3 i n hg

theorem catRel_set_left {g : Graph} {c c2 : List (Nat × String)} {iid : Nat}
    {data : List (List (String × PVal))} {et : Option String}
    (hr : catRel g c c2) (hn : nlistGet g.nodes iid = some (.construct data et))
    (h2 : nlistGet c2 iid = some (idHex iid)) :
    catRel g (nlistSet c iid (idHex iid)) c2 := by
  obtain ⟨hc1, hc2, h3⟩ := hr
  refine ⟨catOnly_set hc1 hn, hc2, ?_⟩
  intro i n hg
  by_cases hi : i = iid
  · subst hi
    rw [nlistGet_set_self] at hg
    cases hg
    exact h2
  · rw [nlistGet_set_ne _ _ _ _ hi] at hg
    exact h3 i n hg

theorem catRel_trans {g : Graph} {a b c : List (Nat × String)}
    (h1 : catRel g a b) (h2 : catRel g b c) : catRel g a c :=
  ⟨h1.1, h2.2.1, fun i n hn => h2.2.2 i n (h1.2.2 i n hn)⟩

theorem catRel_set_right {g : Graph} {c : List (Nat × String)} {iid : Nat}
    {data : List (List (String × PVal))} {et : Option String}
    (hc : catOnly g c) (hmiss : nlistGet c iid = none)
    (hn : nlistGet g.nodes iid = some (.construct data et)) :
    catRel g c (nlistSet c iid (idHex iid)) := by
  refine ⟨hc, catOnly_set hc hn, ?_⟩
  intro i n hg
  by_cases hi : i = iid
  · subst hi
    rw [hmiss] at hg
    cases hg
  · rw [nlistGet_set_ne _ _ _ _ hi]
    exact hg

/-- Joint simulation statement, at a given fuel: running any of the
evaluator functions from a state whose catalog is replaced by a related
(well-formed, larger) one succeeds with the same outputs and a related
catalog, and each run only grows its own catalog. -/
def SimStmt (fuel : Nat) : Prop :=
  (∀ g cfg iid cat mem store nc c2 t s,
    catRel g cat c2 →
    evalIIG fuel g cfg iid ⟨cat, mem, store, nc⟩ = .ok (t, s) →
    catRel g cat s.catalog ∧
    ∃ c3, evalIIG fuel g cfg iid ⟨c2, mem, store, nc⟩ =
        .ok (t, ⟨c3, s.memory, s.store, s.ncount⟩) ∧ catRel g s.catalog c3) ∧
  (∀ g cfg r2n v cat mem store nc c2 v1 s,
    catRel g cat c2 →
    resolveValSt fuel g cfg r2n v ⟨cat, mem, store, nc⟩ = .ok (v1, s) →
    catRel g cat s.catalog ∧
    ∃ c3, resolveValSt fuel g cfg r2n v ⟨c2, mem, store, nc⟩ =
        .ok (v1, ⟨c3, s.memory, s.store, s.ncount⟩) ∧ catRel g s.catalog c3) ∧
  (∀ g cfg r2n c cat mem store nc c2 c1 s,
    catRel g cat c2 →
    resolveCompSt fuel g cfg r2n c ⟨cat, mem, store, nc⟩ = .ok (c1, s) →
    catRel g cat s.catalog ∧
    ∃ c3, resolveCompSt fuel g cfg r2n c ⟨c2, mem, store, nc⟩ =
        .ok (c1, ⟨c3, s.memory, s.store, s.ncount⟩) ∧ catRel g s.catalog c3) ∧
  (∀ g cfg r2n cs cat mem store nc c2 cs1 s,
    catRel g cat c2 →
    resolveCompsSt fuel g cfg r2n cs ⟨cat, mem, store, nc⟩ = .ok (cs1, s) →
    catRel g cat s.catalog ∧
    ∃ c3, resolveCompsSt fuel g cfg r2n cs ⟨c2, mem, store, nc⟩ =
        .ok (cs1, ⟨c3, s.memory, s.store, s.ncount⟩) ∧ catRel g s.catalog c3) ∧
  (∀ g cfg r2n exp cat mem store nc c2 exp1 s,
    catRel g cat c2 →
    resolveExpSt fuel g cfg r2n exp ⟨cat, mem, store, nc⟩ = .ok (exp1, s) →
    catRel g cat s.catalog ∧
    ∃ c3, resolveExpSt fuel g cfg r2n exp ⟨c2, mem, store, nc⟩ =
        .ok (exp1, ⟨c3, s.memory, s.store, s.ncount⟩) ∧ catRel g s.catalog c3)


theorem catRel_none_of_nonconstruct {g : Graph} {cat c2 : List (Nat × String)}
    {iid : Nat} (hrel : catRel g cat c2) {instr : Instr}
    (h2 : nlistGet g.nodes iid = some instr)
    (hni : ∀ data et, instr ≠ .construct data et) :
    nlistGet c2 iid = none := by
  cases h3 : nlistGet c2 iid with
  | none => rfl
  | some nm =>
    obtain ⟨-, data, et, hcon⟩ := hrel.2.1 iid nm h3
    rw [h2] at hcon
    injection hcon with h4
    exact absurd h4 (hni data et)

theorem simAll : ∀ fuel, SimStmt fuel := by
  intro fuel
  induction fuel with
  | zero =>
    refine ⟨?_, ?_, ?_, ?_, ?_⟩
    · intro g cfg iid cat mem store nc c2 t s _ h
      simp [evalIIG] at h
    · intro g cfg r2n v cat mem store nc c2 v1 s _ h
      simp [resolveValSt] at h
    · intro g cfg r2n c cat mem store nc c2 c1 s _ h
      simp [resolveCompSt] at h
    · intro g cfg r2n cs cat mem store nc c2 cs1 s _ h
      simp [resolveCompsSt] at h
    · intro g cfg r2n exp cat mem store nc c2 exp1 s _ h
      simp [resolveExpSt] at h
  | succ n ih =>
    obtain ⟨ihEval, ihVal, ihComp, ihComps, ihExp⟩ := ih
    refine ⟨?_, ?_, ?_, ?_, ?_⟩
    · -- evalIIG
      intro g cfg iid cat mem store nc c2 t s hrel h
      simp only [evalIIG] at h ⊢
      cases h1 : nlistGet cat iid with
      | some tbl =>
        simp only [h1] at h
        cases h
        rw [hrel.2.2 iid tbl h1]
        exact ⟨catRel_refl hrel.1, c2, rfl, hrel⟩
      | none =>
        simp only [h1] at h
        cases h2 : nlistGet g.nodes iid with
        | none => simp only [h2] at h; exact absurd h (by simp)
        | some instr =>
          simp only [h2] at h
          match instr with
          | .construct data et =>
            cases h
            cases h3 : nlistGet c2 iid with
            | some nm =>
              obtain ⟨hnm1, -⟩ := hrel.2.1 iid nm h3
              subst hnm1
              exact ⟨catRel_set_right hrel.1 h1 h2, c2, rfl,
                catRel_set_left hrel h2 h3⟩
            | none =>
              exact ⟨catRel_set_right hrel.1 h1 h2, nlistSet c2 iid (idHex iid),
                rfl, catRel_set_both hrel h2⟩
          | .dataSource nm => exact absurd h (by simp)
          | .refI nm => exact absurd h (by simp)
          | .varI name =>
            have hc2n : nlistGet c2 iid = none :=
              catRel_none_of_nonconstruct hrel h2 (fun d e hh => by cases hh)
            cases h3 : nlistGet mem iid with
            | some tid =>
              simp only [h3] at h
              cases h
              refine ⟨catRel_refl hrel.1, c2, ?_, hrel⟩
              simp only [hc2n, h2, h3]
            | none =>
              simp only [h3] at h
              cases h4 : getTrunkNBranches g iid with
              | error e => rw [h4, ebind_err] at h; exact absurd h (by simp)
              | ok tb =>
                obtain ⟨trunk, r2n⟩ := tb
                rw [h4, ebind_ok] at h
                cases h5 : evalIIG n g cfg trunk ⟨cat, mem, store, nc⟩ with
                | error e => rw [h5, ebind_err] at h; exact absurd h (by simp)
                | ok p =>
                  obtain ⟨tid, st1⟩ := p
                  rw [h5, ebind_ok] at h
                  obtain ⟨hm1, c3p, hrun2, hrel1⟩ :=
                    ihEval g cfg trunk cat mem store nc c2 tid st1 hrel h5
                  cases h
                  refine ⟨hm1, c3p, ?_, hrel1⟩
                  simp only [hc2n, h2, h3, h4, hrun2, ebind_ok, newTranslator,
                    readQuery]
          | .retI =>
            have hc2n : nlistGet c2 iid = none :=
              catRel_none_of_nonconstruct hrel h2 (fun d e hh => by cases hh)
            cases h3 : nlistGet mem iid with
            | some tid =>
              simp only [h3] at h
              cases h
              refine ⟨catRel_refl hrel.1, c2, ?_, hrel⟩
              simp only [hc2n, h2, h3]
            | none =>
              simp only [h3] at h
              cases h4 : getTrunkNBranches g iid with
              | error e => rw [h4, ebind_err] at h; exact absurd h (by simp)
              | ok tb =>
                obtain ⟨trunk, r2n⟩ := tb
                rw [h4, ebind_ok] at h
                cases h5 : evalIIG n g cfg trunk ⟨cat, mem, store, nc⟩ with
                | error e => rw [h5, ebind_err] at h; exact absurd h (by simp)
                | ok p =>
                  obtain ⟨tid, st1⟩ := p
                  rw [h5, ebind_ok] at h
                  obtain ⟨hm1, c3p, hrun2, hrel1⟩ :=
                    ihEval g cfg trunk cat mem store nc c2 tid st1 hrel h5
                  cases h
                  refine ⟨hm1, c3p, ?_, hrel1⟩
                  simp only [hc2n, h2, h3, h4, hrun2, ebind_ok]
          | .explainI =>
            have hc2n : nlistGet c2 iid = none :=
              catRel_none_of_nonconstruct hrel h2 (fun d e hh => by cases hh)
            cases h3 : nlistGet mem iid with
            | some tid =>
              simp only [h3] at h
              cases h
              refine ⟨catRel_refl hrel.1, c2, ?_, hrel⟩
              simp only [hc2n, h2, h3]
            | none =>
              simp only [h3] at h
              cases h4 : getTrunkNBranches g iid with
              | error e => rw [h4, ebind_err] at h; exact absurd h (by simp)
              | ok tb =>
                obtain ⟨trunk, r2n⟩ := tb
                rw [h4, ebind_ok] at h
                cases h5 : evalIIG n g cfg trunk ⟨cat, mem, store, nc⟩ with
                | error e => rw [h5, ebind_err] at h; exact absurd h (by simp)
                | ok p =>
                  obtain ⟨tid, st1⟩ := p
                  rw [h5, ebind_ok] at h
                  obtain ⟨hm1, c3p, hrun2, hrel1⟩ :=
                    ihEval g cfg trunk cat mem store nc c2 tid st1 hrel h5
                  cases h
                  refine ⟨hm1, c3p, ?_, hrel1⟩
                  simp only [hc2n, h2, h3, h4, hrun2, ebind_ok]
          | .filterI f =>
            have hc2n : nlistGet c2 iid = none :=
              catRel_none_of_nonconstruct hrel h2 (fun d e hh => by cases hh)
            cases h3 : nlistGet mem iid with
            | some tid =>
              simp only [h3] at h
              cases h
              refine ⟨catRel_refl hrel.1, c2, ?_, hrel⟩
              simp only [hc2n, h2, h3]
            | none =>
              simp only [h3] at h
              cases h4 : getTrunkNBranches g iid with
              | error e => rw [h4, ebind_err] at h; exact absurd h (by simp)
              | ok tb =>
                obtain ⟨trunk, r2n⟩ := tb
                rw [h4, ebind_ok] at h
                cases h5 : evalIIG n g cfg trunk ⟨cat, mem, store, nc⟩ with
                | error e => rw [h5, ebind_err] at h; exact absurd h (by simp)
                | ok p =>
                  obtain ⟨tid, st1⟩ := p
                  rw [h5, ebind_ok] at h
                  obtain ⟨hm1, c3p, hrun2, hrel1⟩ :=
                    ihEval g cfg trunk cat mem store nc c2 tid st1 hrel h5
                  cases h6 : resolveExpSt n g cfg r2n f.exp st1 with
                  | error e => rw [h6, ebind_err] at h; exact absurd h (by simp)
                  | ok pr =>
                    obtain ⟨exp1, st2⟩ := pr
                    rw [h6, ebind_ok] at h
                    obtain ⟨hm2, c3q, hres2, hrel2⟩ :=
                      ihExp g cfg r2n f.exp st1.catalog st1.memory st1.store
                        st1.ncount c3p exp1 st2 hrel1 h6
                    cases h7 : filterToSelection cfg ⟨exp1, f.timerange⟩ with
                    | error e => rw [h7, ebind_err] at h; exact absurd h (by simp)
                    | ok sel =>
                      rw [h7, ebind_ok] at h
                      cases h
                      refine ⟨catRel_trans hm1 hm2, c3q, ?_, hrel2⟩
                      simp only [hc2n, h2, h3, h4, hrun2, ebind_ok, hres2, h7,
                        writeQuery, readQuery]
          | .projAttrsI attrs =>
            have hc2n : nlistGet c2 iid = none :=
              catRel_none_of_nonconstruct hrel h2 (fun d e hh => by cases hh)
            cases h3 : nlistGet mem iid with
            | some tid =>
              simp only [h3] at h
              cases h
              refine ⟨catRel_refl hrel.1, c2, ?_, hrel⟩
              simp only [hc2n, h2, h3]
            | none =>
              simp only [h3] at h
              cases h4 : getTrunkNBranches g iid with
              | error e => rw [h4, ebind_err] at h; exact absurd h (by simp)
              | ok tb =>
                obtain ⟨trunk, r2n⟩ := tb
                rw [h4, ebind_ok] at h
                cases h5 : evalIIG n g cfg trunk ⟨cat, mem, store, nc⟩ with
                | error e => rw [h5, ebind_err] at h; exact absurd h (by simp)
                | ok p =>
                  obtain ⟨tid, st1⟩ := p
                  rw [h5, ebind_ok] at h
                  obtain ⟨hm1, c3p, hrun2, hrel1⟩ :=
                    ihEval g cfg trunk cat mem store nc c2 tid st1 hrel h5
                  cases h6 : addInstructionQ cfg (.projAttrsI attrs)
                      (readQuery st1 tid) with
                  | error e => rw [h6, ebind_err] at h; exact absurd h (by simp)
                  | ok q1 =>
                    rw [h6, ebind_ok] at h
                    cases h
                    have h6b : addInstructionQ cfg (.projAttrsI attrs)
                        (readQuery ⟨c3p, st1.memory, st1.store, st1.ncount⟩ tid) =
                          .ok q1 := by
                      simpa only [readQuery] using h6
                    refine ⟨hm1, c3p, ?_, hrel1⟩
                    simp only [hc2n, h2, h3, h4, hrun2, ebind_ok, h6b, writeQuery]
          | .projEntityI a b =>
            have hc2n : nlistGet c2 iid = none :=
              catRel_none_of_nonconstruct hrel h2 (fun d e hh => by cases hh)
            cases h3 : nlistGet mem iid with
            | some tid =>
              simp only [h3] at h
              cases h
              refine ⟨catRel_refl hrel.1, c2, ?_, hrel⟩
              simp only [hc2n, h2, h3]
            | none =>
              simp only [h3] at h
              cases h4 : getTrunkNBranches g iid with
              | error e => rw [h4, ebind_err] at h; exact absurd h (by simp)
              | ok tb =>
                obtain ⟨trunk, r2n⟩ := tb
                rw [h4, ebind_ok] at h
                cases h5 : evalIIG n g cfg trunk ⟨cat, mem, store, nc⟩ with
                | error e => rw [h5, ebind_err] at h; exact absurd h (by simp)
                | ok p =>
                  obtain ⟨tid, st1⟩ := p
                  rw [h5, ebind_ok] at h
                  obtain ⟨hm1, c3p, hrun2, hrel1⟩ :=
                    ihEval g cfg trunk cat mem store nc c2 tid st1 hrel h5
                  cases h6 : addInstructionQ cfg (.projEntityI a b)
                      (readQuery st1 tid) with
                  | error e => rw [h6, ebind_err] at h; exact absurd h (by simp)
                  | ok q1 =>
                    rw [h6, ebind_ok] at h
                    cases h
                    have h6b : addInstructionQ cfg (.projEntityI a b)
                        (readQuery ⟨c3p, st1.memory, st1.store, st1.ncount⟩ tid) =
                          .ok q1 := by
                      simpa only [readQuery] using h6
                    refine ⟨hm1, c3p, ?_, hrel1⟩
                    simp only [hc2n, h2, h3, h4, hrun2, ebind_ok, h6b, writeQuery]
          | .limitI m =>
            have hc2n : nlistGet c2 iid = none :=
              catRel_none_of_nonconstruct hrel h2 (fun d e hh => by cases hh)
            cases h3 : nlistGet mem iid with
            | some tid =>
              simp only [h3] at h
              cases h
              refine ⟨catRel_refl hrel.1, c2, ?_, hrel⟩
              simp only [hc2n, h2, h3]
            | none =>
              simp only [h3] at h
              cases h4 : getTrunkNBranches g iid with
              | error e => rw [h4, ebind_err] at h; exact absurd h (by simp)
              | ok tb =>
                obtain ⟨trunk, r2n⟩ := tb
                rw [h4, ebind_ok] at h
                cases h5 : evalIIG n g cfg trunk ⟨cat, mem, store, nc⟩ with
                | error e => rw [h5, ebind_err] at h; exact absurd h (by simp)
                | ok p =>
                  obtain ⟨tid, st1⟩ := p
                  rw [h5, ebind_ok] at h
                  obtain ⟨hm1, c3p, hrun2, hrel1⟩ :=
                    ihEval g cfg trunk cat mem store nc c2 tid st1 hrel h5
                  cases h6 : addInstructionQ cfg (.limitI m)
                      (readQuery st1 tid) with
                  | error e => rw [h6, ebind_err] at h; exact absurd h (by simp)
                  | ok q1 =>
                    rw [h6, ebind_ok] at h
                    cases h
                    have h6b : addInstructionQ cfg (.limitI m)
                        (readQuery ⟨c3p, st1.memory, st1.store, st1.ncount⟩ tid) =
                          .ok q1 := by
                      simpa only [readQuery] using h6
                    refine ⟨hm1, c3p, ?_, hrel1⟩
                    simp only [hc2n, h2, h3, h4, hrun2, ebind_ok, h6b, writeQuery]
          | .offsetI m =>
            have hc2n : nlistGet c2 iid = none :=
              catRel_none_of_nonconstruct hrel h2 (fun d e hh => by cases hh)
            cases h3 : nlistGet mem iid with
            | some tid =>
              simp only [h3] at h
              cases h
              refine ⟨catRel_refl hrel.1, c2, ?_, hrel⟩
              simp only [hc2n, h2, h3]
            | none =>
              simp only [h3] at h
              cases h4 : getTrunkNBranches g iid with
              | error e => rw [h4, ebind_err] at h; exact absurd h (by simp)
              | ok tb =>
                obtain ⟨trunk, r2n⟩ := tb
                rw [h4, ebind_ok] at h
                cases h5 : evalIIG n g cfg trunk ⟨cat, mem, store, nc⟩ with
                | error e => rw [h5, ebind_err] at h; exact absurd h (by simp)
                | ok p =>
                  obtain ⟨tid, st1⟩ := p
                  rw [h5, ebind_ok] at h
                  obtain ⟨hm1, c3p, hrun2, hrel1⟩ :=
                    ihEval g cfg trunk cat mem store nc c2 tid st1 hrel h5
                  cases h6 : addInstructionQ cfg (.offsetI m)
                      (readQuery st1 tid) with
                  | error e => rw [h6, ebind_err] at h; exact absurd h (by simp)
                  | ok q1 =>
                    rw [h6, ebind_ok] at h
                    cases h
                    have h6b : addInstructionQ cfg (.offsetI m)
                        (readQuery ⟨c3p, st1.memory, st1.store, st1.ncount⟩ tid) =
                          .ok q1 := by
                      simpa only [readQuery] using h6
                    refine ⟨hm1, c3p, ?_, hrel1⟩
                    simp only [hc2n, h2, h3, h4, hrun2, ebind_ok, h6b, writeQuery]
          | .sortI a asc =>
            have hc2n : nlistGet c2 iid = none :=
              catRel_none_of_nonconstruct hrel h2 (fun d e hh => by cases hh)
            cases h3 : nlistGet mem iid with
            | some tid =>
              simp only [h3] at h
              cases h
              refine ⟨catRel_refl hrel.1, c2, ?_, hrel⟩
              simp only [hc2n, h2, h3]
            | none =>
              simp only [h3] at h
              cases h4 : getTrunkNBranches g iid with
              | error e => rw [h4, ebind_err] at h; exact absurd h (by simp)
              | ok tb =>
                obtain ⟨trunk, r2n⟩ := tb
                rw [h4, ebind_ok] at h
                cases h5 : evalIIG n g cfg trunk ⟨cat, mem, store, nc⟩ with
                | error e => rw [h5, ebind_err] at h; exact absurd h (by simp)
                | ok p =>
                  obtain ⟨tid, st1⟩ := p
                  rw [h5, ebind_ok] at h
                  obtain ⟨hm1, c3p, hrun2, hrel1⟩ :=
                    ihEval g cfg trunk cat mem store nc c2 tid st1 hrel h5
                  cases h6 : addInstructionQ cfg (.sortI a asc)
                      (readQuery st1 tid) with
                  | error e => rw [h6, ebind_err] at h; exact absurd h (by simp)
                  | ok q1 =>
                    rw [h6, ebind_ok] at h
                    cases h
                    have h6b : addInstructionQ cfg (.sortI a asc)
                        (readQuery ⟨c3p, st1.memory, st1.store, st1.ncount⟩ tid) =
                          .ok q1 := by
                      simpa only [readQuery] using h6
                    refine ⟨hm1, c3p, ?_, hrel1⟩
                    simp only [hc2n, h2, h3, h4, hrun2, ebind_ok, h6b, writeQuery]
    · -- resolveValSt
      intro g cfg r2n v cat mem store nc c2 v1 s hrel h
      match v with
      | .vref name attrs =>
        simp only [resolveValSt] at h ⊢
        cases hb : alistGet r2n name with
        | none => simp only [hb] at h; exact absurd h (by simp)
        | some bid =>
          simp only [hb] at h
          cases he : evalIIG n g cfg bid ⟨cat, mem, store, nc⟩ with
          | error e => rw [he, ebind_err] at h; exact absurd h (by simp)
          | ok p =>
            obtain ⟨btid, st1⟩ := p
            rw [he, ebind_ok] at h
            obtain ⟨hm1, c3p, hrun2, hrel1⟩ :=
              ihEval g cfg bid cat mem store nc c2 btid st1 hrel he
            cases h
            refine ⟨hm1, c3p, ?_, hrel1⟩
            simp only [hb, hrun2, ebind_ok, readQuery]
      | .vstr x =>
        simp only [resolveValSt] at h ⊢
        cases h
        exact ⟨catRel_refl hrel.1, c2, rfl, hrel⟩
      | .vint x =>
        simp only [resolveValSt] at h ⊢
        cases h
        exact ⟨catRel_refl hrel.1, c2, rfl, hrel⟩
      | .vfloat x =>
        simp only [resolveValSt] at h ⊢
        cases h
        exact ⟨catRel_refl hrel.1, c2, rfl, hrel⟩
      | .vlist x =>
        simp only [resolveValSt] at h ⊢
        cases h
        exact ⟨catRel_refl hrel.1, c2, rfl, hrel⟩
      | .vtuple x =>
        simp only [resolveValSt] at h ⊢
        cases h
        exact ⟨catRel_refl hrel.1, c2, rfl, hrel⟩
      | .vquery x =>
        simp only [resolveValSt] at h ⊢
        cases h
        exact ⟨catRel_refl hrel.1, c2, rfl, hrel⟩
    · -- resolveCompSt
      intro g cfg r2n c cat mem store nc c2 c1 s hrel h
      match c with
      | .intComp fl op v =>
        simp only [resolveCompSt] at h ⊢
        cases hv : resolveValSt n g cfg r2n v ⟨cat, mem, store, nc⟩ with
        | error e => rw [hv, ebind_err] at h; exact absurd h (by simp)
        | ok p =>
          obtain ⟨v1, st1⟩ := p
          rw [hv, ebind_ok] at h
          obtain ⟨hm1, c3p, hrun2, hrel1⟩ :=
            ihVal g cfg r2n v cat mem store nc c2 v1 st1 hrel hv
          cases h
          refine ⟨hm1, c3p, ?_, hrel1⟩
          simp only [hrun2, ebind_ok]
      | .floatComp fl op v =>
        simp only [resolveCompSt] at h ⊢
        cases hv : resolveValSt n g cfg r2n v ⟨cat, mem, store, nc⟩ with
        | error e => rw [hv, ebind_err] at h; exact absurd h (by simp)
        | ok p =>
          obtain ⟨v1, st1⟩ := p
          rw [hv, ebind_ok] at h
          obtain ⟨hm1, c3p, hrun2, hrel1⟩ :=
            ihVal g cfg r2n v cat mem store nc c2 v1 st1 hrel hv
          cases h
          refine ⟨hm1, c3p, ?_, hrel1⟩
          simp only [hrun2, ebind_ok]
      | .strComp fl op v =>
        simp only [resolveCompSt] at h ⊢
        cases hv : resolveValSt n g cfg r2n v ⟨cat, mem, store, nc⟩ with
        | error e => rw [hv, ebind_err] at h; exact absurd h (by simp)
        | ok p =>
          obtain ⟨v1, st1⟩ := p
          rw [hv, ebind_ok] at h
          obtain ⟨hm1, c3p, hrun2, hrel1⟩ :=
            ihVal g cfg r2n v cat mem store nc c2 v1 st1 hrel hv
          cases h
          refine ⟨hm1, c3p, ?_, hrel1⟩
          simp only [hrun2, ebind_ok]
      | .listComp fl op v =>
        simp only [resolveCompSt] at h ⊢
        cases hv : resolveValSt n g cfg r2n v ⟨cat, mem, store, nc⟩ with
        | error e => rw [hv, ebind_err] at h; exact absurd h (by simp)
        | ok p =>
          obtain ⟨v1, st1⟩ := p
          rw [hv, ebind_ok] at h
          obtain ⟨hm1, c3p, hrun2, hrel1⟩ :=
            ihVal g cfg r2n v cat mem store nc c2 v1 st1 hrel hv
          cases h
          refine ⟨hm1, c3p, ?_, hrel1⟩
          simp only [hrun2, ebind_ok]
      | .refComp fs op v =>
        simp only [resolveCompSt] at h ⊢
        cases hv : resolveValSt n g cfg r2n v ⟨cat, mem, store, nc⟩ with
        | error e => rw [hv, ebind_err] at h; exact absurd h (by simp)
        | ok p =>
          obtain ⟨v1, st1⟩ := p
          rw [hv, ebind_ok] at h
          obtain ⟨hm1, c3p, hrun2, hrel1⟩ :=
            ihVal g cfg r2n v cat mem store nc c2 v1 st1 hrel hv
          cases h
          refine ⟨hm1, c3p, ?_, hrel1⟩
          simp only [hrun2, ebind_ok]
    · -- resolveCompsSt
      intro g cfg r2n cs cat mem store nc c2 cs1 s hrel h
      match cs with
      | [] =>
        simp only [resolveCompsSt] at h ⊢
        cases h
        exact ⟨catRel_refl hrel.1, c2, rfl, hrel⟩
      | c :: rest =>
        simp only [resolveCompsSt] at h ⊢
        cases hc : resolveCompSt n g cfg r2n c ⟨cat, mem, store, nc⟩ with
        | error e => rw [hc, ebind_err] at h; exact absurd h (by simp)
        | ok p =>
          obtain ⟨c1h, st1⟩ := p
          rw [hc, ebind_ok] at h
          obtain ⟨hm1, c3p, hrun2, hrel1⟩ :=
            ihComp g cfg r2n c cat mem store nc c2 c1h st1 hrel hc
          cases hr : resolveCompsSt n g cfg r2n rest st1 with
          | error e => rw [hr, ebind_err] at h; exact absurd h (by simp)
          | ok p2 =>
            obtain ⟨cs2, st2⟩ := p2
            rw [hr, ebind_ok] at h
            obtain ⟨hm2, c3q, hrun3, hrel2⟩ :=
              ihComps g cfg r2n rest st1.catalog st1.memory st1.store st1.ncount
                c3p cs2 st2 hrel1 hr
            cases h
            refine ⟨catRel_trans hm1 hm2, c3q, ?_, hrel2⟩
            simp only [hrun2, ebind_ok, hrun3]
    · -- resolveExpSt
      intro g cfg r2n exp cat mem store nc c2 exp1 s hrel h
      match exp with
      | .absTrue =>
        simp only [resolveExpSt] at h ⊢
        cases h
        exact ⟨catRel_refl hrel.1, c2, rfl, hrel⟩
      | .boolExp l op r =>
        simp only [resolveExpSt] at h ⊢
        cases hl : resolveExpSt n g cfg r2n l ⟨cat, mem, store, nc⟩ with
        | error e => rw [hl, ebind_err] at h; exact absurd h (by simp)
        | ok p =>
          obtain ⟨l1, st1⟩ := p
          rw [hl, ebind_ok] at h
          obtain ⟨hm1, c3p, hrun2, hrel1⟩ :=
            ihExp g cfg r2n l cat mem store nc c2 l1 st1 hrel hl
          cases hr : resolveExpSt n g cfg r2n r st1 with
          | error e => rw [hr, ebind_err] at h; exact absurd h (by simp)
          | ok p2 =>
            obtain ⟨r1, st2⟩ := p2
            rw [hr, ebind_ok] at h
            obtain ⟨hm2, c3q, hrun3, hrel2⟩ :=
              ihExp g cfg r2n r st1.catalog st1.memory st1.store st1.ncount
                c3p r1 st2 hrel1 hr
            cases h
            refine ⟨catRel_trans hm1 hm2, c3q, ?_, hrel2⟩
            simp only [hrun2, ebind_ok, hrun3]
      | .multiComp op comps =>
        simp only [resolveExpSt] at h ⊢
        cases hc : resolveCompsSt n g cfg r2n comps ⟨cat, mem, store, nc⟩ with
        | error e => rw [hc, ebind_err] at h; exact absurd h (by simp)
        | ok p =>
          obtain ⟨cs1, st1⟩ := p
          rw [hc, ebind_ok] at h
          obtain ⟨hm1, c3p, hrun2, hrel1⟩ :=
            ihComps g cfg r2n comps cat mem store nc c2 cs1 st1 hrel hc
          cases h
          refine ⟨hm1, c3p, ?_, hrel1⟩
          simp only [hrun2, ebind_ok]
      | .comp c =>
        simp only [resolveExpSt] at h ⊢
        cases hc : resolveCompSt n g cfg r2n c ⟨cat, mem, store, nc⟩ with
        | error e => rw [hc, ebind_err] at h; exact absurd h (by simp)
        | ok p =>
          obtain ⟨c1h, st1⟩ := p
          rw [hc, ebind_ok] at h
          obtain ⟨hm1, c3p, hrun2, hrel1⟩ :=
            ihComp g cfg r2n c cat mem store nc c2 c1h st1 hrel hc
          cases h
          refine ⟨hm1, c3p, ?_, hrel1⟩
          simp only [hrun2, ebind_ok]

/-- Claim C3: evaluation does not mutate the caller's IR graph.  A
session-level `evaluate_graph` hands back the graph it was given unchanged;
re-evaluating the same graph against the grown cache catalog succeeds with
an equal query; and every successful `resolve_references` pass leaves the
rendered filter expression free of `ReferenceValue`s. -/
theorem claim_C3_evaluation_pure (fuel : Nat) (g : Graph) (cfg : TConfig)
    (sinkId : Nat) (cat : List (Nat × String)) (q : SQuery) (g1 : Graph)
    (cat1 : List (Nat × String)) (hwf : catOnly g cat)
    (h : evaluateGraphSession fuel g cfg sinkId cat = .ok (q, g1, cat1)) :
    g1 = g ∧
    (∃ cat2, evaluateGraphSession fuel g cfg sinkId cat1 = .ok (q, g, cat2)) ∧
    (∀ r2n exp st exp1 st1,
      resolveExpSt fuel g cfg r2n exp st = .ok (exp1, st1) →
        noRefValues exp1 = true) := by
  simp only [evaluateGraphSession, evaluateGraphSink] at h
  cases he : evalIIG fuel g cfg sinkId ⟨cat, [], [], 0⟩ with
  | error e =>
    rw [he] at h
    simp only [ebind_err] at h
    exact absurd h (by simp)
  | ok p =>
    obtain ⟨tid, st⟩ := p
    rw [he] at h
    simp only [ebind_ok] at h
    cases h
    obtain ⟨hmono, -⟩ :=
      (simAll fuel).1 g cfg sinkId cat [] [] 0 cat tid st (catRel_refl hwf) he
    obtain ⟨-, c3, hrun2, -⟩ :=
      (simAll fuel).1 g cfg sinkId cat [] [] 0 st.catalog tid st hmono he
    refine ⟨rfl, ⟨c3, ?_⟩, ?_⟩
    · simp only [evaluateGraphSession, evaluateGraphSink, hrun2, ebind_ok,
        readQuery]
    · intro r2n exp st0 exp1 st1 hres
      exact (resolveNoRef fuel).2.2.2 g cfg r2n exp st0 exp1 st1 hres

/-- A small evaluable graph for exercising `claim_C3_evaluation_pure`:
Construct (1) feeding Variable `v` (2) feeding Return (3). -/
def exGraphC3 : Graph :=
  ⟨[(1, .construct [] (some "process")), (2, .varI "v"), (3, .retI)],
   [(1, 2), (2, 3)]⟩

/-- A minimal translator configuration for the C3 witness. -/
def exCfgC3 : TConfig := ⟨none, fun _ => "", none⟩

theorem claim_C3_evaluation_pure_witness :
    catOnly exGraphC3 [] ∧
    evaluateGraphSession 9 exGraphC3 exCfgC3 3 [] =
      .ok (baseQuery (.scte "v" (baseQuery (.stable "tbl1"))), exGraphC3,
        [(1, "tbl1")]) ∧
    (exGraphC3 = exGraphC3 ∧
      (∃ cat2, evaluateGraphSession 9 exGraphC3 exCfgC3 3 [(1, "tbl1")] =
        .ok (baseQuery (.scte "v" (baseQuery (.stable "tbl1"))), exGraphC3,
          cat2)) ∧
      (∀ r2n exp st exp1 st1,
        resolveExpSt 9 exGraphC3 exCfgC3 r2n exp st = .ok (exp1, st1) →
          noRefValues exp1 = true)) :=
  ⟨fun i n h => by simp [nlistGet] at h, rfl,
    claim_C3_evaluation_pure 9 exGraphC3 exCfgC3 3 []
      (baseQuery (.scte "v" (baseQuery (.stable "tbl1")))) exGraphC3
      [(1, "tbl1")] (fun i n h => by simp [nlistGet] at h) rfl⟩
